import Mathlib

/-!
# Verification development for libra-code: Ehrenfest integrators, ensemble populations, Fock matrix

Shallow embedding of

* `src/dyn/Ehrenfest.cpp` (`Ehrenfest0`, `Ehrenfest1`, `Ehrenfest2`),
* `src/dyn/ensemble/Ensemble.cpp` (`se_pop`, `sh_pop`, `sh_pop1`, `ham_set_v`),
* `src/hamiltonian/Hamiltonian_Atomistic/Hamiltonian_QM/Hamiltonian_HF.cpp`
  (`Hamiltonian_Fock_hf`).

Conventions of the embedding:

* `double` is embedded as `ℚ` (exact arithmetic, computable); `0.5*dt` is `(1/2) * dt`.
* `std::complex<double>` is embedded as the record `complex` of two rationals.
* `vector<T>` is embedded as `List T`; a read `v[i]` is `v.getD i d` with `d` the zero
  (default) value of `T`, a write `v[i] = x` is `v.set i x`.
* C++ `int` sizes and indices (`ntraj`, `nelec`, `nnucl`, `n_rows`, `n_cols`, the entries of a
  permutation or stencil) are `Nat`; an `int` that is a label or a flag (`istate`, `rep`,
  `do_reordering`, `do_phase_correction`, a level argument) is `Int`.
* a matrix is its shape and its total entry accessor; a function, class or method that is
  defined outside the three source files is either a field of an operations record
  (`Methods`, `Hamiltonian`) or a definition marked `Modelled from the spec:`.
* mutable objects are passed explicitly: a function returns the new values of what it updates;
  a function that can call `exit` returns an `Option`, `none` standing for the exit.
-/

set_option autoImplicit false

namespace liblibra

/-- The type `std::complex<double>`: real and imaginary part. -/
structure complex where
  re : ℚ
  im : ℚ
deriving DecidableEq, Inhabited

namespace complex

/-- The method `real()`. -/
def real (z : complex) : ℚ := z.re

/-- Sum of two complex numbers. -/
def add (z w : complex) : complex := ⟨z.re + w.re, z.im + w.im⟩

/-- Product of two complex numbers. -/
def mul (z w : complex) : complex := ⟨z.re * w.re - z.im * w.im, z.re * w.im + z.im * w.re⟩

/-- `std::conj`: the complex conjugate. -/
def conj (z : complex) : complex := ⟨z.re, -z.im⟩

/-- `std::norm`: the squared modulus `re^2 + im^2`. -/
def norm (z : complex) : ℚ := z.re * z.re + z.im * z.im

instance : Zero complex := ⟨⟨0, 0⟩⟩
instance : One complex := ⟨⟨1, 0⟩⟩
instance : Add complex := ⟨add⟩
instance : Mul complex := ⟨mul⟩

end complex

/-- Modelled from the spec: the dense real matrix class `MATRIX` of the linear-algebra library
(declared outside `src/`): the shape and the entry accessor `get(i,j)`. Entries outside the
shape are not part of the matrix; the accessor is total so that a read with an index outside
the shape (which the C++ code does not check) has a value. -/
structure MATRIX where
  n_rows : Nat
  n_cols : Nat
  get : Nat → Nat → ℚ

/-- Modelled from the spec: the dense complex matrix class `CMATRIX` (declared outside
`src/`), as `MATRIX`. -/
structure CMATRIX where
  n_rows : Nat
  n_cols : Nat
  get : Nat → Nat → complex

namespace MATRIX

/-- Modelled from the spec: `MATRIX::add(i, j, x)`, the in-place `M(i,j) += x`. -/
def add (m : MATRIX) (i j : Nat) (x : ℚ) : MATRIX :=
  { m with get := fun a b => if a = i ∧ b = j then m.get a b + x else m.get a b }

/-- Modelled from the spec: `MATRIX::operator+`, entrywise sum with the shape of the left
operand. -/
def plus (m k : MATRIX) : MATRIX :=
  { m with get := fun a b => m.get a b + k.get a b }

/-- Modelled from the spec: `MATRIX::operator*(double)`, entrywise scaling. -/
def times (m : MATRIX) (f : ℚ) : MATRIX :=
  { m with get := fun a b => m.get a b * f }

/-- Modelled from the spec: `MATRIX::col(t)`, the `n_rows x 1` matrix holding column `t`. -/
def col (m : MATRIX) (t : Nat) : MATRIX :=
  { n_rows := m.n_rows, n_cols := 1, get := fun a b => if b = 0 then m.get a t else 0 }

instance : Add MATRIX := ⟨plus⟩
instance : HMul MATRIX ℚ MATRIX := ⟨times⟩

end MATRIX

namespace CMATRIX

/-- Modelled from the spec: `CMATRIX::real()`, the matrix of real parts. -/
def real (m : CMATRIX) : MATRIX :=
  { n_rows := m.n_rows, n_cols := m.n_cols, get := fun a b => (m.get a b).real }

/-- Modelled from the spec: `CMATRIX::col(t)`, the `n_rows x 1` matrix holding column `t`. -/
def col (m : CMATRIX) (t : Nat) : CMATRIX :=
  { n_rows := m.n_rows, n_cols := 1, get := fun a b => if b = 0 then m.get a t else 0 }

/-- Modelled from the spec: `CMATRIX::set(i, j, x)`, the in-place `M(i,j) = x`. -/
def set (m : CMATRIX) (i j : Nat) (x : complex) : CMATRIX :=
  { m with get := fun a b => if a = i ∧ b = j then x else m.get a b }

/-- Modelled from the spec: `CMATRIX::H()`, the conjugate transpose. -/
def H (m : CMATRIX) : CMATRIX :=
  { n_rows := m.n_cols, n_cols := m.n_rows, get := fun a b => (m.get b a).conj }

/-- Modelled from the spec: `CMATRIX::operator*`, the matrix product (the inner index runs
over the columns of the left operand). -/
def mul (m k : CMATRIX) : CMATRIX :=
  { n_rows := m.n_rows, n_cols := k.n_cols,
    get := fun a b => ((List.range m.n_cols).map (fun c => m.get a c * k.get c b)).sum }

/-- Modelled from the spec: `CMATRIX::permute_rows(perm)`, "apply the permutation to the row
ordering": row `i` of the result is row `perm[i]` of the original, for every row of the
matrix (a row the permutation has no entry for stays in place). -/
def permute_rows (m : CMATRIX) (perm : List Nat) : CMATRIX :=
  { m with get := fun a b => if a < m.n_rows then m.get (perm.getD a a) b else m.get a b }

/-- Modelled from the spec: `CMATRIX::permute_cols(perm)`, the same relabeling applied to the
columns: column `j` of the result is column `perm[j]` of the original. -/
def permute_cols (m : CMATRIX) (perm : List Nat) : CMATRIX :=
  { m with get := fun a b => if b < m.n_cols then m.get a (perm.getD b b) else m.get a b }

instance : Mul CMATRIX := ⟨mul⟩

end CMATRIX

/-- Modelled from the spec: `push_submatrix(X, x, subset_rows, subset_cols)` of the
linear-algebra library, which writes `x(i,j)` into `X(subset_rows[i], subset_cols[j])`. -/
def push_submatrix (X x : CMATRIX) (subset_rows subset_cols : List Nat) : CMATRIX :=
  (List.range subset_rows.length).foldl
    (fun X i =>
      (List.range subset_cols.length).foldl
        (fun X j => X.set (subset_rows.getD i 0) (subset_cols.getD j 0) (x.get i j)) X)
    X

namespace libdyn

/-- Modelled from the spec: an `nHamiltonian` object that aggregates per-trajectory handles
(class declared outside `src/`): the member `nadi`, the object's own data and the objects
`children[traj]`, each of the type `S` of a single Hamiltonian handle. `Ehrenfest.cpp` reaches
the children only through `children[traj]`, so the vector is embedded by its total accessor. -/
structure nHamiltonian (S : Type) where
  nadi : Nat
  self : S
  children : Nat → S

/-- The operations `Ehrenfest.cpp` calls on Hamiltonian objects, all defined outside `src/` and
taken as parameters. `S` is the type of a single Hamiltonian handle, `Py` the type of the
Python objects `py_funct` and `params`. The first group are the single-object overloads (used
by `Ehrenfest0` and on `ham.children[traj]`), the second group the overloads with a level
argument, called on the aggregating object, the third group free functions. -/
structure Methods (S Py : Type) where
  compute_nac_dia : MATRIX → MATRIX → S → S
  compute_hvib_dia : S → S
  compute_nac_adi : MATRIX → MATRIX → S → S
  compute_hvib_adi : S → S
  Ehrenfest_forces_dia : CMATRIX → Int → S → CMATRIX
  Ehrenfest_forces_adi : CMATRIX → Int → S → CMATRIX
  compute_diabatic : Py → MATRIX → Py → S → S
  compute_adiabatic : Int → S → S
  get_basis_transform : S → CMATRIX
  update_ordering : List Nat → Int → S → S
  update_phases : CMATRIX → Int → S → CMATRIX × S
  compute_nac_dia_lvl : MATRIX → MATRIX → Int → Int → nHamiltonian S → nHamiltonian S
  compute_hvib_dia_lvl : Int → nHamiltonian S → nHamiltonian S
  compute_nac_adi_lvl : MATRIX → MATRIX → Int → Int → nHamiltonian S → nHamiltonian S
  compute_hvib_adi_lvl : Int → nHamiltonian S → nHamiltonian S
  Ehrenfest_forces_dia_lvl : CMATRIX → Int → nHamiltonian S → CMATRIX
  Ehrenfest_forces_adi_lvl : CMATRIX → Int → nHamiltonian S → CMATRIX
  compute_diabatic_lvl : Py → MATRIX → Py → Int → nHamiltonian S → nHamiltonian S
  compute_adiabatic_lvl : Int → Int → nHamiltonian S → nHamiltonian S
  propagate_electronic : ℚ → CMATRIX → S → Int → CMATRIX
  propagate_electronic_children : ℚ → CMATRIX → (Nat → S) → Int → CMATRIX
  get_reordering : CMATRIX → List Nat

/-- The values `Ehrenfest0` leaves in `q`, `p`, `C` and the Hamiltonian handle. -/
structure State0 (S : Type) where
  q : MATRIX
  p : MATRIX
  C : CMATRIX
  ham : S

/-- The values `Ehrenfest1` and `Ehrenfest2` leave in `q`, `p`, `C` and the Hamiltonian
object. -/
structure State1 (S : Type) where
  q : MATRIX
  p : MATRIX
  C : CMATRIX
  ham : nHamiltonian S

/-- `Ehrenfest0(dt, q, p, invM, C, ham, py_funct, params, rep)`: one step for one trajectory. -/
def Ehrenfest0 {S Py : Type} (M : Methods S Py) (dt : ℚ) (q p invM : MATRIX) (C : CMATRIX)
    (ham : S) (py_funct params : Py) (rep : Int) : State0 S :=
  let ndof := q.n_rows
  let ham :=
    if rep = 0 then M.compute_hvib_dia (M.compute_nac_dia p invM ham)
    else if rep = 1 then M.compute_hvib_adi (M.compute_nac_adi p invM ham)
    else ham
  let C := M.propagate_electronic ((1/2) * dt) C ham rep
  let p :=
    if rep = 0 then p + (M.Ehrenfest_forces_dia C 0 ham).real * (1/2 : ℚ) * dt
    else if rep = 1 then p + (M.Ehrenfest_forces_adi C 0 ham).real * (1/2 : ℚ) * dt
    else p
  let q := (List.range ndof).foldl
    (fun q dof => q.add dof 0 (invM.get dof 0 * p.get dof 0 * dt)) q
  let ham := M.compute_diabatic py_funct q params ham
  let ham := M.compute_adiabatic 1 ham
  let p :=
    if rep = 0 then p + (M.Ehrenfest_forces_dia C 0 ham).real * (1/2 : ℚ) * dt
    else if rep = 1 then p + (M.Ehrenfest_forces_adi C 0 ham).real * (1/2 : ℚ) * dt
    else p
  let ham :=
    if rep = 0 then M.compute_hvib_dia (M.compute_nac_dia p invM ham)
    else if rep = 1 then M.compute_hvib_adi (M.compute_nac_adi p invM ham)
    else ham
  let C := M.propagate_electronic ((1/2) * dt) C ham rep
  { q := q, p := p, C := C, ham := ham }

/-- The coordinate update of `Ehrenfest1` and `Ehrenfest2`:
`for(traj=0; traj<ntraj; traj++){ for(dof=0; dof<ndof; dof++){
   q.add(dof, traj, invM.get(dof,0) * p.get(dof,traj) * dt ); } }`. -/
def update_q (ndof ntraj : Nat) (dt : ℚ) (q p invM : MATRIX) : MATRIX :=
  (List.range ntraj).foldl
    (fun q traj =>
      (List.range ndof).foldl
        (fun q dof => q.add dof traj (invM.get dof 0 * p.get dof traj * dt)) q)
    q

/-- `Ehrenfest1(dt, q, p, invM, C, ham, py_funct, params, rep)`: one step for an ensemble of
trajectories. -/
def Ehrenfest1 {S Py : Type} (M : Methods S Py) (dt : ℚ) (q p invM : MATRIX) (C : CMATRIX)
    (ham : nHamiltonian S) (py_funct params : Py) (rep : Int) : State1 S :=
  let ndof := q.n_rows
  let ntraj := q.n_cols
  let ham :=
    if rep = 0 then M.compute_hvib_dia_lvl 1 (M.compute_nac_dia_lvl p invM 0 1 ham)
    else if rep = 1 then M.compute_hvib_adi_lvl 1 (M.compute_nac_adi_lvl p invM 0 1 ham)
    else ham
  let C := M.propagate_electronic_children ((1/2) * dt) C ham.children rep
  let p :=
    if rep = 0 then p + (M.Ehrenfest_forces_dia_lvl C 1 ham).real * (1/2 : ℚ) * dt
    else if rep = 1 then p + (M.Ehrenfest_forces_adi_lvl C 1 ham).real * (1/2 : ℚ) * dt
    else p
  let q := update_q ndof ntraj dt q p invM
  let ham := M.compute_diabatic_lvl py_funct q params 1 ham
  let ham := M.compute_adiabatic_lvl 1 1 ham
  let p :=
    if rep = 0 then p + (M.Ehrenfest_forces_dia_lvl C 1 ham).real * (1/2 : ℚ) * dt
    else if rep = 1 then p + (M.Ehrenfest_forces_adi_lvl C 1 ham).real * (1/2 : ℚ) * dt
    else p
  let ham :=
    if rep = 0 then M.compute_hvib_dia_lvl 1 (M.compute_nac_dia_lvl p invM 0 1 ham)
    else if rep = 1 then M.compute_hvib_adi_lvl 1 (M.compute_nac_adi_lvl p invM 0 1 ham)
    else ham
  let C := M.propagate_electronic_children ((1/2) * dt) C ham.children rep
  { q := q, p := p, C := C, ham := ham }

/-- Modelled from the spec: `phase_correct_ampl(&x, phases)` (defined outside `src/`), "apply
the conjugate phase to the corresponding entries of `C`": entry `i` of the column `x` is
multiplied by the conjugate of `phases(i, 0)`. -/
def phase_correct_ampl (x phases : CMATRIX) : CMATRIX :=
  { x with get := fun a b =>
      if a < x.n_rows ∧ b = 0 then x.get a b * (phases.get a 0).conj else x.get a b }

/-- The snapshot loop of `Ehrenfest2`:
`for(traj=0; traj<ntraj; traj++){ *Uprev[traj] = ham.children[traj]->get_basis_transform(); }`. -/
def snapshot {S Py : Type} (M : Methods S Py) (ntraj : Nat)
    (ham : nHamiltonian S) : List CMATRIX :=
  (List.range ntraj).map (fun traj => M.get_basis_transform (ham.children traj))

/-- The body of the reordering loop of `Ehrenfest2` for trajectory `traj`, acting on the
Hamiltonian object and `C`. -/
def reorder_traj {S Py : Type} (M : Methods S Py) (Uprev : List CMATRIX)
    (el_stenc_x : List Nat) (s : nHamiltonian S × CMATRIX) (traj : Nat) :
    nHamiltonian S × CMATRIX :=
  let ham := s.1
  let C := s.2
  let X := (Uprev.getD traj ⟨0, 0, fun _ _ => 0⟩).H *
    M.get_basis_transform (ham.children traj)
  let perm_t := M.get_reordering X
  let child := M.update_ordering perm_t 1 (ham.children traj)
  let ham : nHamiltonian S := ⟨ham.nadi, ham.self, Function.update ham.children traj child⟩
  let el_stenc_y := [traj]
  let x := C.col traj
  let x := x.permute_rows perm_t
  (ham, push_submatrix C x el_stenc_x el_stenc_y)

/-- The body of the phase-correction loop of `Ehrenfest2` for trajectory `traj`. -/
def phase_traj {S Py : Type} (M : Methods S Py) (Uprev : List CMATRIX)
    (el_stenc_x : List Nat) (s : nHamiltonian S × CMATRIX) (traj : Nat) :
    nHamiltonian S × CMATRIX :=
  let ham := s.1
  let C := s.2
  let r := M.update_phases (Uprev.getD traj ⟨0, 0, fun _ _ => 0⟩) 1 (ham.children traj)
  let phases := r.1
  let ham : nHamiltonian S := ⟨ham.nadi, ham.self, Function.update ham.children traj r.2⟩
  let el_stenc_y := [traj]
  let x := C.col traj
  let x := phase_correct_ampl x phases
  (ham, push_submatrix C x el_stenc_x el_stenc_y)

/-- The correction block of `Ehrenfest2` inside `if(rep==1){ ... }`: the reordering loop
`if(do_reordering){ for(traj=0; traj<ntraj; traj++){ ... } }` followed by the phase-correction
loop `if(do_phase_correction){ for(traj=0; traj<ntraj; traj++){ ... } }`. -/
def correction_block {S Py : Type} (M : Methods S Py) (ntraj : Nat) (Uprev : List CMATRIX)
    (el_stenc_x : List Nat) (do_reordering do_phase_correction : Int)
    (s : nHamiltonian S × CMATRIX) : nHamiltonian S × CMATRIX :=
  let s : nHamiltonian S × CMATRIX :=
    if do_reordering ≠ 0 then (List.range ntraj).foldl (reorder_traj M Uprev el_stenc_x) s
    else s
  if do_phase_correction ≠ 0 then (List.range ntraj).foldl (phase_traj M Uprev el_stenc_x) s
  else s

/-- `Ehrenfest2(dt, q, p, invM, C, ham, py_funct, params, rep, do_reordering,
do_phase_correction)`: the ensemble step with state reordering and phase correction. -/
def Ehrenfest2 {S Py : Type} (M : Methods S Py) (dt : ℚ) (q p invM : MATRIX)
    (C : CMATRIX) (ham : nHamiltonian S) (py_funct params : Py) (rep : Int)
    (do_reordering do_phase_correction : Int) : State1 S :=
  let ndof := q.n_rows
  let ntraj := q.n_cols
  let nst := C.n_rows
  let el_stenc_x := List.range nst
  let ham :=
    if rep = 0 then M.compute_hvib_dia_lvl 1 (M.compute_nac_dia_lvl p invM 0 1 ham)
    else if rep = 1 then M.compute_hvib_adi_lvl 1 (M.compute_nac_adi_lvl p invM 0 1 ham)
    else ham
  let C := M.propagate_electronic_children ((1/2) * dt) C ham.children rep
  let p :=
    if rep = 0 then p + (M.Ehrenfest_forces_dia_lvl C 1 ham).real * (1/2 : ℚ) * dt
    else if rep = 1 then p + (M.Ehrenfest_forces_adi_lvl C 1 ham).real * (1/2 : ℚ) * dt
    else p
  let q := update_q ndof ntraj dt q p invM
  let Uprev : List CMATRIX :=
    if rep = 1 then
      if do_phase_correction ≠ 0 ∨ do_reordering ≠ 0 then snapshot M ntraj ham else []
    else []
  let ham := M.compute_diabatic_lvl py_funct q params 1 ham
  let ham := M.compute_adiabatic_lvl 1 1 ham
  let s : nHamiltonian S × CMATRIX :=
    if rep = 1 then
      correction_block M ntraj Uprev el_stenc_x do_reordering do_phase_correction (ham, C)
    else (ham, C)
  let ham := s.1
  let C := s.2
  let p :=
    if rep = 0 then p + (M.Ehrenfest_forces_dia_lvl C 1 ham).real * (1/2 : ℚ) * dt
    else if rep = 1 then p + (M.Ehrenfest_forces_adi_lvl C 1 ham).real * (1/2 : ℚ) * dt
    else p
  let ham :=
    if rep = 0 then M.compute_hvib_dia_lvl 1 (M.compute_nac_dia_lvl p invM 0 1 ham)
    else if rep = 1 then M.compute_hvib_adi_lvl 1 (M.compute_nac_adi_lvl p invM 0 1 ham)
    else ham
  let C := M.propagate_electronic_children ((1/2) * dt) C ham.children rep
  { q := q, p := p, C := C, ham := ham }

/-- The overload `Ehrenfest2(dt, q, p, invM, C, ham, py_funct, params, rep)`: both corrections
on. -/
def Ehrenfest2_default {S Py : Type} (M : Methods S Py) (dt : ℚ)
    (q p invM : MATRIX) (C : CMATRIX) (ham : nHamiltonian S) (py_funct params : Py)
    (rep : Int) : State1 S :=
  Ehrenfest2 M dt q p invM C ham py_funct params rep 1 1

/-- The block "Update NACs and Hvib for all trajectories" of `Ehrenfest1`, which occurs twice:
`if(rep==0){ ham.compute_nac_dia(p, invM, 0, 1); ham.compute_hvib_dia(1); }
 else if(rep==1){ ham.compute_nac_adi(p, invM, 0, 1); ham.compute_hvib_adi(1); }`. -/
def update_hvib {S Py : Type} (M : Methods S Py) (rep : Int) (p invM : MATRIX)
    (ham : nHamiltonian S) : nHamiltonian S :=
  if rep = 0 then M.compute_hvib_dia_lvl 1 (M.compute_nac_dia_lvl p invM 0 1 ham)
  else if rep = 1 then M.compute_hvib_adi_lvl 1 (M.compute_nac_adi_lvl p invM 0 1 ham)
  else ham

/-- The recomputation of the Hamiltonian at a geometry in `Ehrenfest1`:
`ham.compute_diabatic(py_funct, bp::object(q), params, 1); ham.compute_adiabatic(1, 1);`. -/
def recompute {S Py : Type} (M : Methods S Py) (py_funct params : Py) (q : MATRIX)
    (ham : nHamiltonian S) : nHamiltonian S :=
  M.compute_adiabatic_lvl 1 1 (M.compute_diabatic_lvl py_funct q params 1 ham)

/-- The Ehrenfest force `Ehrenfest1` reads in representation `rep` (0 or 1):
`ham.Ehrenfest_forces_dia(C, 1)` or `ham.Ehrenfest_forces_adi(C, 1)`. -/
def forces {S Py : Type} (M : Methods S Py) (rep : Int) (C : CMATRIX)
    (ham : nHamiltonian S) : CMATRIX :=
  if rep = 0 then M.Ehrenfest_forces_dia_lvl C 1 ham else M.Ehrenfest_forces_adi_lvl C 1 ham

/-- The momentum update of `Ehrenfest1` and `Ehrenfest2`, which occurs twice:
`if(rep==0){ p = p + ham.Ehrenfest_forces_dia(C, 1).real() * 0.5*dt; }
 else if(rep==1){ p = p + ham.Ehrenfest_forces_adi(C, 1).real() * 0.5*dt; }`. -/
def kick {S Py : Type} (M : Methods S Py) (rep : Int) (dt : ℚ) (C : CMATRIX)
    (ham : nHamiltonian S) (p : MATRIX) : MATRIX :=
  if rep = 0 then p + (M.Ehrenfest_forces_dia_lvl C 1 ham).real * (1/2 : ℚ) * dt
  else if rep = 1 then p + (M.Ehrenfest_forces_adi_lvl C 1 ham).real * (1/2 : ℚ) * dt
  else p

/-- The amplitudes of `Ehrenfest1` after the first electronic propagation by `dt/2`. -/
def C_half {S Py : Type} (M : Methods S Py) (dt : ℚ) (p invM : MATRIX) (C : CMATRIX)
    (ham : nHamiltonian S) (rep : Int) : CMATRIX :=
  M.propagate_electronic_children ((1/2) * dt) C (update_hvib M rep p invM ham).children rep

/-- The real part of the Ehrenfest force of `Ehrenfest1` before the geometry update, read with
the amplitudes `C_half`. -/
def F_old {S Py : Type} (M : Methods S Py) (dt : ℚ) (p invM : MATRIX) (C : CMATRIX)
    (ham : nHamiltonian S) (rep : Int) : MATRIX :=
  (forces M rep (C_half M dt p invM C ham rep) (update_hvib M rep p invM ham)).real

/-- The momenta of `Ehrenfest1` (and `Ehrenfest2`) after the first momentum update. -/
def p_half {S Py : Type} (M : Methods S Py) (dt : ℚ) (p invM : MATRIX) (C : CMATRIX)
    (ham : nHamiltonian S) (rep : Int) : MATRIX :=
  kick M rep dt (C_half M dt p invM C ham rep) (update_hvib M rep p invM ham) p

/-- The real part of the Ehrenfest force of `Ehrenfest1` after the Hamiltonian is recomputed at
the new geometry, read with the same amplitudes `C_half`. -/
def F_new {S Py : Type} (M : Methods S Py) (dt : ℚ) (q p invM : MATRIX) (C : CMATRIX)
    (ham : nHamiltonian S) (py_funct params : Py) (rep : Int) : MATRIX :=
  (forces M rep (C_half M dt p invM C ham rep)
    (recompute M py_funct params
      (update_q q.n_rows q.n_cols dt q (p_half M dt p invM C ham rep) invM)
      (update_hvib M rep p invM ham))).real

/-- A Hamiltonian handle for tests: one nuclear degree of freedom in the potential `q^2/2`
and one electronic state; it stores the force at the last geometry and the (scalar) vibronic
Hamiltonian computed from the last velocity. -/
structure Oscillator where
  force : ℚ
  hvib : ℚ
deriving DecidableEq, Inhabited

/-- The unit-modulus phase `(1 + i x)^2 / (1 + x^2)`, a rational rotation. -/
def cayley (x : ℚ) : complex := ⟨(1 - x * x) / (1 + x * x), 2 * x / (1 + x * x)⟩

/-- The operations of the test Hamiltonian `Oscillator`: the batched overloads act on child `t`
with column `t`, the propagator multiplies the amplitudes of trajectory `t` by the rotation
`cayley (dt * hvib)`, and the basis transform is the `1 x 1` identity. -/
def oscillator : Methods Oscillator Unit where
  compute_nac_dia := fun p invM s => ⟨s.force, invM.get 0 0 * p.get 0 0⟩
  compute_hvib_dia := fun s => s
  compute_nac_adi := fun p invM s => ⟨s.force, invM.get 0 0 * p.get 0 0⟩
  compute_hvib_adi := fun s => s
  Ehrenfest_forces_dia := fun _ _ s => ⟨1, 1, fun _ b => if b = 0 then ⟨s.force, 0⟩ else 0⟩
  Ehrenfest_forces_adi := fun _ _ s => ⟨1, 1, fun _ b => if b = 0 then ⟨s.force, 0⟩ else 0⟩
  compute_diabatic := fun _ q _ s => ⟨-q.get 0 0, s.hvib⟩
  compute_adiabatic := fun _ s => s
  get_basis_transform := fun _ => ⟨1, 1, fun _ _ => 1⟩
  update_ordering := fun _ _ s => s
  update_phases := fun _ _ s => (⟨1, 1, fun _ _ => 1⟩, s)
  compute_nac_dia_lvl := fun p invM _ _ h =>
    ⟨h.nadi, h.self, fun t => ⟨(h.children t).force, invM.get 0 0 * p.get 0 t⟩⟩
  compute_hvib_dia_lvl := fun _ h => h
  compute_nac_adi_lvl := fun p invM _ _ h =>
    ⟨h.nadi, h.self, fun t => ⟨(h.children t).force, invM.get 0 0 * p.get 0 t⟩⟩
  compute_hvib_adi_lvl := fun _ h => h
  Ehrenfest_forces_dia_lvl := fun C _ h => ⟨1, C.n_cols, fun _ b => ⟨(h.children b).force, 0⟩⟩
  Ehrenfest_forces_adi_lvl := fun C _ h => ⟨1, C.n_cols, fun _ b => ⟨(h.children b).force, 0⟩⟩
  compute_diabatic_lvl := fun _ q _ _ h =>
    ⟨h.nadi, h.self, fun t => ⟨-q.get 0 t, (h.children t).hvib⟩⟩
  compute_adiabatic_lvl := fun _ _ h => h
  propagate_electronic := fun τ C s _ =>
    ⟨C.n_rows, C.n_cols, fun a b => C.get a b * cayley (τ * s.hvib)⟩
  propagate_electronic_children := fun τ C hs _ =>
    ⟨C.n_rows, C.n_cols, fun a b => C.get a b * cayley (τ * (hs b).hvib)⟩
  get_reordering := fun X => List.range X.n_rows

/-- Modelled from the spec: the internal quantities of a per-trajectory Hamiltonian handle
that reordering and phase correction act on (class `nHamiltonian` is declared outside
`src/`): the adiabatic energies, the NAC, the vibronic Hamiltonian and the basis-transform
matrix whose columns are the adiabatic states. -/
structure Handle where
  ham_adi : CMATRIX
  nac_adi : CMATRIX
  hvib_adi : CMATRIX
  basis_transform : CMATRIX

/-- Relabeling of a state-by-state matrix: rows and columns permuted by the same
permutation. -/
def relabel (m : CMATRIX) (perm : List Nat) : CMATRIX :=
  (m.permute_rows perm).permute_cols perm

/-- Modelled from the spec: `nHamiltonian::update_ordering(perm, lvl)` (defined outside
`src/`), "propagate the same relabeling into the Hamiltonian handle's internal state
(energies, NAC, Hvib must be permuted consistently, not just the amplitudes)"; the columns of
the basis transform, which are the states, are relabeled with them. -/
def update_ordering (perm : List Nat) (_lvl : Int) (h : Handle) : Handle :=
  { ham_adi := relabel h.ham_adi perm
    nac_adi := relabel h.nac_adi perm
    hvib_adi := relabel h.hvib_adi perm
    basis_transform := h.basis_transform.permute_cols perm }

/-- The phase `f / |f|` of a complex number (1 for `f = 0`); `sqrt` is the real square root of
the maths library, a parameter of the model. -/
def unit_phase (sqrt : ℚ → ℚ) (f : complex) : complex :=
  if f.norm = 0 then 1 else ⟨f.re / sqrt f.norm, f.im / sqrt f.norm⟩

/-- Modelled from the spec: the phase vector of `update_phases`, "the phase that makes the
diagonal overlap `Uprev^† Unew` real and positive": entry `i` is the phase of the diagonal
entry `i` of `Uprev^† * U`, one entry per adiabatic state (column of `U`). -/
def phase_vector (sqrt : ℚ → ℚ) (Uprev U : CMATRIX) : CMATRIX :=
  { n_rows := U.n_cols, n_cols := 1, get := fun a _ => unit_phase sqrt ((Uprev.H * U).get a a) }

/-- Multiply column `j` of `m` by the phase of state `j`, for every state the phase vector has
an entry for. -/
def scale_cols (m phases : CMATRIX) : CMATRIX :=
  { m with get := fun a b => if b < phases.n_rows then m.get a b * phases.get b 0 else m.get a b }

/-- Multiply entry `(i, j)` of a state-by-state matrix by the conjugate phase of state `i` and
the phase of state `j`. -/
def scale_both (m phases : CMATRIX) : CMATRIX :=
  { m with get := fun a b =>
      if a < phases.n_rows ∧ b < phases.n_rows then
        (phases.get a 0).conj * m.get a b * phases.get b 0
      else m.get a b }

/-- Modelled from the spec: `nHamiltonian::update_phases(Uprev, lvl)` (defined outside
`src/`), "compute a per-state complex phase factor [...], apply it to the Hamiltonian
handle's stored transform/NAC/Hvib"; returns the phase vector and the updated handle. -/
def update_phases (sqrt : ℚ → ℚ) (Uprev : CMATRIX) (_lvl : Int) (h : Handle) :
    CMATRIX × Handle :=
  let phases := phase_vector sqrt Uprev h.basis_transform
  (phases,
   { ham_adi := h.ham_adi
     nac_adi := scale_both h.nac_adi phases
     hvib_adi := scale_both h.hvib_adi phases
     basis_transform := scale_cols h.basis_transform phases })

/-- The new state with the largest overlap `|X(i,j)|^2` with the old state `i` among the new
states not in `used` (the lowest index on a tie). -/
def best_free (X : CMATRIX) (i : Nat) (used : List Nat) : Option Nat :=
  (List.range X.n_cols).foldl
    (fun best j =>
      if j ∈ used then best
      else match best with
        | none => some j
        | some b => if (X.get i b).norm < (X.get i j).norm then some j else some b)
    none

/-- Modelled from the spec: `get_reordering(X)` (defined outside `src/`), "the state
permutation that best aligns new adiabatic states with old ones", as the "greedy max-overlap
assignment" the spec names: the old states `i = 0, 1, ...` in turn take the free new state of
largest overlap; `perm[i]` is the new state assigned to the old state `i`. -/
def get_reordering (X : CMATRIX) : List Nat :=
  (List.range X.n_rows).foldl (fun perm i => perm ++ [(best_free X i perm).getD i]) []

/-- Operations `M` with the reordering and phase operations replaced by their models
`get_reordering`, `update_ordering`, `update_phases` on handles of type `Handle`. -/
def with_corrections {Py : Type} (sqrt : ℚ → ℚ) (M : Methods Handle Py) : Methods Handle Py :=
  { M with
    get_basis_transform := fun h => h.basis_transform
    update_ordering := update_ordering
    update_phases := update_phases sqrt
    get_reordering := get_reordering }

/-- The squared norm of column `t` of `C` over the first `n` rows: `sum_i |C(i,t)|^2`. -/
def col_norm (C : CMATRIX) (t n : Nat) : ℚ :=
  ((List.range n).map (fun i => (C.get i t).norm)).sum

/-- Test operations with two adiabatic states whose labels are swapped at every step and
whose phases are `i` and `-1`: as `oscillator`, except for the reordering and the phases. -/
def swap_ops : Methods Oscillator Unit :=
  { oscillator with
    get_reordering := fun _ => [1, 0]
    update_phases := fun _ _ s => (⟨2, 1, fun a _ => if a = 0 then ⟨0, 1⟩ else ⟨-1, 0⟩⟩, s) }

/-- A two-state Hamiltonian object for `swap_ops`. -/
def two_state_ham : nHamiltonian Oscillator := ⟨2, ⟨0, 0⟩, fun _ => ⟨0, 0⟩⟩

/-- Amplitudes of two trajectories over two states: column `t` is `(3/5, 4/5 i)` for
`t = 0` and `(1, 0)` otherwise. -/
def two_state_C : CMATRIX :=
  ⟨2, 2, fun a t => if t = 0 then (if a = 0 then ⟨3/5, 0⟩ else ⟨0, 4/5⟩)
    else (if a = 0 then ⟨1, 0⟩ else ⟨0, 0⟩)⟩

/-- Test operations on `Handle` that leave the handle and the amplitudes alone and return
zero forces; used under `with_corrections`. -/
def idle_ops : Methods Handle Unit where
  compute_nac_dia := fun _ _ s => s
  compute_hvib_dia := fun s => s
  compute_nac_adi := fun _ _ s => s
  compute_hvib_adi := fun s => s
  Ehrenfest_forces_dia := fun _ _ _ => ⟨1, 1, fun _ _ => 0⟩
  Ehrenfest_forces_adi := fun _ _ _ => ⟨1, 1, fun _ _ => 0⟩
  compute_diabatic := fun _ _ _ s => s
  compute_adiabatic := fun _ s => s
  get_basis_transform := fun s => s.basis_transform
  update_ordering := fun _ _ s => s
  update_phases := fun _ _ s => (⟨1, 1, fun _ _ => 1⟩, s)
  compute_nac_dia_lvl := fun _ _ _ _ h => h
  compute_hvib_dia_lvl := fun _ h => h
  compute_nac_adi_lvl := fun _ _ _ _ h => h
  compute_hvib_adi_lvl := fun _ h => h
  Ehrenfest_forces_dia_lvl := fun C _ _ => ⟨1, C.n_cols, fun _ _ => 0⟩
  Ehrenfest_forces_adi_lvl := fun C _ _ => ⟨1, C.n_cols, fun _ _ => 0⟩
  compute_diabatic_lvl := fun _ _ _ _ h => h
  compute_adiabatic_lvl := fun _ _ h => h
  propagate_electronic := fun _ C _ _ => C
  propagate_electronic_children := fun _ C _ _ => C
  get_reordering := fun X => List.range X.n_rows

/-- The unitary matrix `[[0, i], [1, 0]]`. -/
def unitary_U : CMATRIX :=
  ⟨2, 2, fun a b => if a = 0 ∧ b = 1 then ⟨0, 1⟩ else if a = 1 ∧ b = 0 then 1 else 0⟩

/-- A two-state Hamiltonian object whose handles all have the basis transform `unitary_U`
and energies `diag(1, 2)`. -/
def unitary_ham : nHamiltonian Handle :=
  ⟨2, ⟨unitary_U, unitary_U, unitary_U, unitary_U⟩,
    fun _ => ⟨⟨2, 2, fun a b => if a = b then ⟨(a : ℚ) + 1, 0⟩ else 0⟩, unitary_U, unitary_U,
      unitary_U⟩⟩

/-- Two trajectories of the test Hamiltonian at the geometries `q = 0` and `q = 1`. -/
def two_traj_ham : nHamiltonian Oscillator := ⟨1, ⟨0, 0⟩, fun t => ⟨-(t : ℚ), 0⟩⟩

/-- Coordinates `[0, 1]` of the two test trajectories (one degree of freedom). -/
def two_traj_q : MATRIX := ⟨1, 2, fun _ t => (t : ℚ)⟩

/-- Momenta `[1, 1]` of the two test trajectories. -/
def two_traj_p : MATRIX := ⟨1, 2, fun _ _ => 1⟩

/-- Inverse mass `1/2` of the single degree of freedom. -/
def two_traj_invM : MATRIX := ⟨1, 1, fun _ _ => 1 / 2⟩

/-- Amplitudes `1` of the single electronic state of the two test trajectories. -/
def two_traj_C : CMATRIX := ⟨1, 2, fun _ _ => 1⟩

namespace libensemble

/-- Modelled from the spec: class `Electronic` (declared outside `src/`) as `Ensemble.cpp`
uses it: the occupied state `istate` and the real (`q`) and imaginary (`p`) parts of the
amplitudes, one entry per electronic state. -/
structure Electronic where
  istate : Int
  q : List ℚ
  p : List ℚ
deriving DecidableEq, Inhabited

/-- Modelled from the spec: class `Nuclear` (declared outside `src/`) as `Ensemble.cpp` uses
it: the number of nuclear degrees of freedom and their masses, coordinates and momenta. -/
structure Nuclear where
  nnucl : Nat
  mass : List ℚ
  q : List ℚ
  p : List ℚ
deriving DecidableEq, Inhabited

/-- The virtual methods of class `Hamiltonian` that `Ensemble.cpp` calls, over the type `H` of
the states of a Hamiltonian object (the class itself is declared outside `src/`). -/
structure Hamiltonian (H : Type) where
  set_q : List ℚ → H → H
  set_v : List ℚ → H → H
  compute : H → H
  set_rep : Int → H → H
  H : Nat → Nat → H → complex

/-- Class `Ensemble` (declared in `Ensemble.h`, outside `src/`): the members that `_init` in
`Ensemble.cpp` sets. -/
structure Ensemble (H : Type) where
  ntraj : Nat
  nelec : Nat
  nnucl : Nat
  el : List Electronic
  mol : List Nuclear
  ham : List H
  is_active : List Int

/-- `pops.resize(n, v)` of `std::vector`: truncate to `n` entries or pad with `v`. -/
def resize (pops : List ℚ) (n : Nat) (v : ℚ) : List ℚ :=
  pops.take n ++ List.replicate (n - pops.length) v

/-- The guard at the head of each population routine:
`if(pops.size()!=nelec){ pops.reserve(nelec); pops.resize(nelec,0.0); }`. -/
def fix_size (pops : List ℚ) (nelec : Nat) : List ℚ :=
  if pops.length ≠ nelec then resize pops nelec 0 else pops

/-- The flag `res` of `se_pop` and `sh_pop`:
`int res = 1; for(n=0;n<nnucl;n++){ if(mol[traj].q[n]<xmin || mol[traj].q[n] > xmax ){ res = 0; } }`. -/
def box_res (m : Nuclear) (nnucl : Nat) (xmin xmax : ℚ) : Int :=
  (List.range nnucl).foldl
    (fun res n => if m.q.getD n 0 < xmin ∨ m.q.getD n 0 > xmax then 0 else res) 1

/-- `Ensemble::se_pop(vector<double>& pops, double xmin, double xmax)`; returns the new `pops`. -/
def se_pop {H : Type} (e : Ensemble H) (pops : List ℚ) (xmin xmax : ℚ) : List ℚ :=
  (List.range e.nelec).foldl
    (fun pops i =>
      let pops := pops.set i 0
      let pops := (List.range e.ntraj).foldl
        (fun pops traj =>
          if (e.el.getD traj default).istate = (i : Int) then
            let res := box_res (e.mol.getD traj default) e.nnucl xmin xmax
            if res = 1 then
              let q := (e.el.getD traj default).q.getD i 0
              let p := (e.el.getD traj default).p.getD i 0
              pops.set i (pops.getD i 0 + (q * q + p * p))
            else pops
          else pops)
        pops
      pops.set i (pops.getD i 0 / (e.ntraj : ℚ)))
    (fix_size pops e.nelec)

/-- `Ensemble::sh_pop(vector<double>& pops, double xmin, double xmax)`; returns the new `pops`. -/
def sh_pop {H : Type} (e : Ensemble H) (pops : List ℚ) (xmin xmax : ℚ) : List ℚ :=
  (List.range e.nelec).foldl
    (fun pops i =>
      let pops := pops.set i 0
      let pops := (List.range e.ntraj).foldl
        (fun pops traj =>
          if (e.el.getD traj default).istate = (i : Int) then
            let res := box_res (e.mol.getD traj default) e.nnucl xmin xmax
            if res = 1 then pops.set i (pops.getD i 0 + 1) else pops
          else pops)
        pops
      pops.set i (pops.getD i 0 / (e.ntraj : ℚ)))
    (fix_size pops e.nelec)

/-- `Ensemble::se_pop(vector<double>& pops)`: the box is `[-1000000, 1000000]`. -/
def se_pop_all {H : Type} (e : Ensemble H) (pops : List ℚ) : List ℚ :=
  se_pop e pops (-1000000) 1000000

/-- `Ensemble::sh_pop(vector<double>& pops)`: the box is `[-1000000, 1000000]`. -/
def sh_pop_all {H : Type} (e : Ensemble H) (pops : List ℚ) : List ℚ :=
  sh_pop e pops (-1000000) 1000000

/-- What `sh_pop1` adds to `pops` for trajectory `j` and the loop index `i`: the body of
`for(i=0;i<nelec;i++){ if(mol[j].q[0] > xmin && mol[j].q[0] < xmax){ ... } }`. -/
def sh_pop1_add (m : Nuclear) (el : Electronic) (E0 E1 H0 V xmin xmax : ℚ)
    (pops : List ℚ) (i : Nat) : List ℚ :=
  if m.q.getD 0 0 > xmin ∧ m.q.getD 0 0 < xmax then
    if el.istate = 0 then
      if i = 0 then
        pops.set 0 (pops.getD 0 0 + V * V / ((H0 - E0) * (H0 - E0) + V * V))
      else if i = 1 then
        pops.set 1 (pops.getD 1 0 + (H0 - E0) * (H0 - E0) / ((H0 - E0) * (H0 - E0) + V * V))
      else pops
    else if el.istate = 1 then
      if i = 0 then
        pops.set 0 (pops.getD 0 0 + V * V / ((H0 - E1) * (H0 - E1) + V * V))
      else if i = 1 then
        pops.set 1 (pops.getD 1 0 + (H0 - E1) * (H0 - E1) / ((H0 - E1) * (H0 - E1) + V * V))
      else pops
    else pops
  else pops

/-- The velocity buffer of `sh_pop1` for one trajectory:
`for(i=0;i<mol[j].nnucl;i++){ v_[i] = mol[j].p[i]/mol[j].mass[i]; }`.  A write past the end of
the buffer is dropped by `List.set`. -/
def sh_pop1_v (m : Nuclear) (v_ : List ℚ) : List ℚ :=
  (List.range m.nnucl).foldl (fun v_ i => v_.set i (m.p.getD i 0 / m.mass.getD i 0)) v_

/-- The state threaded through the trajectory loop of `sh_pop1`: the buffer `v_`, the
Hamiltonian objects and `pops`. -/
structure Pop1State (H : Type) where
  v_ : List ℚ
  ham : List H
  pops : List ℚ

/-- What one pass of `sh_pop1` reads from the Hamiltonian object of the trajectory: the
object after the calls, and the locals `E0, E1, H0, H1, V`. -/
structure Pop1Read (H : Type) where
  ham : H
  E0 : ℚ
  E1 : ℚ
  H0 : ℚ
  H1 : ℚ
  V : ℚ

/-- The Hamiltonian calls of one pass of `sh_pop1`, `ham[j]->set_q(mol[j].q)` to
`ham[j]->set_rep(1); // return back to adiabatic`, with `v_` the filled velocity buffer. -/
def sh_pop1_read {H : Type} (ops : Hamiltonian H) (m : Nuclear) (v_ : List ℚ) (h : H) :
    Pop1Read H :=
  let h := ops.set_q m.q h
  let h := ops.set_v v_ h
  let h := ops.compute h
  let h := ops.set_rep 1 h
  let E0 := (ops.H 0 0 h).real
  let E1 := (ops.H 1 1 h).real
  let h := ops.set_rep 0 h
  let H0 := (ops.H 0 0 h).real
  let H1 := (ops.H 1 1 h).real
  let V := (ops.H 0 1 h).real
  let h := ops.set_rep 1 h
  { ham := h, E0 := E0, E1 := E1, H0 := H0, H1 := H1, V := V }

/-- One pass of the loop `for(j=0;j<ntraj;j++)` of `sh_pop1`. -/
def sh_pop1_traj {H : Type} [Inhabited H] (ops : Hamiltonian H) (e : Ensemble H)
    (xmin xmax : ℚ) (s : Pop1State H) (j : Nat) : Pop1State H :=
  let m := e.mol.getD j default
  let v_ := sh_pop1_v m s.v_
  let r := sh_pop1_read ops m v_ (s.ham.getD j default)
  let pops := (List.range e.nelec).foldl
    (sh_pop1_add m (e.el.getD j default) r.E0 r.E1 r.H0 r.V xmin xmax) s.pops
  { v_ := v_, ham := s.ham.set j r.ham, pops := pops }

/-- `Ensemble::sh_pop1(vector<double>& pops, double xmin, double xmax)`; returns the final
buffer, the Hamiltonian objects and the new `pops`. -/
def sh_pop1 {H : Type} [Inhabited H] (ops : Hamiltonian H) (e : Ensemble H)
    (pops : List ℚ) (xmin xmax : ℚ) : Pop1State H :=
  let v_ : List ℚ := List.replicate e.ntraj 0
  let pops := fix_size pops e.nelec
  let pops := (List.range e.nelec).foldl (fun pops i => pops.set i 0) pops
  let s := (List.range e.ntraj).foldl (sh_pop1_traj ops e xmin xmax)
    { v_ := v_, ham := e.ham, pops := pops }
  let pops := (List.range e.nelec).foldl
    (fun pops i => pops.set i (pops.getD i 0 / (e.ntraj : ℚ))) s.pops
  { v_ := s.v_, ham := s.ham, pops := pops }

/-- `Ensemble::ham_set_v()`: push the velocities `p[n]/mass[n]` of every trajectory into its
Hamiltonian object; returns the new Hamiltonian objects. -/
def ham_set_v {H : Type} [Inhabited H] (ops : Hamiltonian H) (e : Ensemble H) : List H :=
  ((List.range e.ntraj).foldl
    (fun (s : List ℚ × List H) i =>
      let v := (List.range e.nnucl).foldl
        (fun v n => v.set n ((e.mol.getD i default).p.getD n 0 / (e.mol.getD i default).mass.getD n 0))
        s.1
      (v, s.2.set i (ops.set_v v (s.2.getD i default))))
    (List.replicate e.nnucl 0, e.ham)).2

/-- The number of trajectories `traj < ntraj` in state `i` whose every nuclear coordinate lies
in the closed box `[xmin, xmax]` (the count the population queries are specified by). -/
def count_in_box {H : Type} (e : Ensemble H) (i : Nat) (xmin xmax : ℚ) : Nat :=
  ((List.range e.ntraj).filter (fun traj =>
    decide ((e.el.getD traj default).istate = (i : Int) ∧
      ∀ n, n < e.nnucl → xmin ≤ (e.mol.getD traj default).q.getD n 0 ∧
        (e.mol.getD traj default).q.getD n 0 ≤ xmax))).length

/-- A two-level Hamiltonian object with constant matrix elements, used to evaluate `sh_pop1`:
the state is the representation flag; diabatic `H = [[0, 1], [1, 0]]`, adiabatic
`H = diag(-1, 1)`. -/
def two_level : Hamiltonian Int where
  set_q := fun _ h => h
  set_v := fun _ h => h
  compute := fun h => h
  set_rep := fun r _ => r
  H := fun i j h =>
    if h = 1 then (if i = j then (if i = 0 then ⟨-1, 0⟩ else ⟨1, 0⟩) else ⟨0, 0⟩)
    else (if i = j then ⟨0, 0⟩ else ⟨1, 0⟩)

/-- One trajectory in state 0 with amplitudes `(3/5, 4/5 i)` at `q = 0`. -/
def ens_one : Ensemble Int where
  ntraj := 1
  nelec := 2
  nnucl := 1
  el := [{ istate := 0, q := [3/5, 0], p := [0, 4/5] }]
  mol := [{ nnucl := 1, mass := [1], q := [0], p := [0] }]
  ham := [1]
  is_active := [1]

/-- The number of trajectories `traj < ntraj` in state `i`, wherever their nuclei are (the
count the window-less population queries are specified by). -/
def count_in_state {H : Type} (e : Ensemble H) (i : Nat) : Nat :=
  ((List.range e.ntraj).filter (fun traj =>
    decide ((e.el.getD traj default).istate = (i : Int)))).length

/-- One trajectory in state 0 with amplitudes `(1, 0)` at `q = 2000000`. -/
def ens_far : Ensemble Int where
  ntraj := 1
  nelec := 2
  nnucl := 1
  el := [{ istate := 0, q := [1, 0], p := [0, 0] }]
  mol := [{ nnucl := 1, mass := [1], q := [2000000], p := [0] }]
  ham := [1]
  is_active := [1]

/-- A Hamiltonian object that records the velocity vector it was last given through `set_v`
(its state is that vector); all matrix elements are zero. -/
def recording : Hamiltonian (List ℚ) where
  set_q := fun _ h => h
  set_v := fun v _ => v
  compute := fun h => h
  set_rep := fun _ h => h
  H := fun _ _ _ => 0

/-- One trajectory with two nuclear degrees of freedom: momenta `(3, 4)`, masses `(1, 2)`. -/
def ens_two_dof : Ensemble (List ℚ) where
  ntraj := 1
  nelec := 2
  nnucl := 2
  el := [{ istate := 0, q := [1, 0], p := [0, 0] }]
  mol := [{ nnucl := 2, mass := [1, 2], q := [0, 0], p := [3, 4] }]
  ham := [[]]
  is_active := [1]

/-- The state of `sh_pop1` when the trajectory loop reaches `j = k`: the buffer, the
Hamiltonian objects and `pops` after the passes `j = 0, ..., k-1`. -/
def sh_pop1_before {H : Type} [Inhabited H] (ops : Hamiltonian H) (e : Ensemble H)
    (pops : List ℚ) (xmin xmax : ℚ) (k : Nat) : Pop1State H :=
  (List.range k).foldl (sh_pop1_traj ops e xmin xmax)
    { v_ := List.replicate e.ntraj 0, ham := e.ham,
      pops := (List.range e.nelec).foldl (fun pops i => pops.set i 0) (fix_size pops e.nelec) }

/-- The values `E0, E1, H0, H1, V` that `sh_pop1` reads from the Hamiltonian object of
trajectory `j`. -/
def sh_pop1_reading {H : Type} [Inhabited H] (ops : Hamiltonian H) (e : Ensemble H)
    (pops : List ℚ) (xmin xmax : ℚ) (j : Nat) : Pop1Read H :=
  sh_pop1_read ops (e.mol.getD j default)
    (sh_pop1_v (e.mol.getD j default) (sh_pop1_before ops e pops xmin xmax j).v_)
    ((sh_pop1_before ops e pops xmin xmax j).ham.getD j default)

/-- The adiabatic energy of the occupied state of an electronic object (`E0` for state 0,
else `E1`) among the values read from its Hamiltonian. -/
def E_occupied {H : Type} (r : Pop1Read H) (el : Electronic) : ℚ :=
  if el.istate = 0 then r.E0 else r.E1

/-- The weight `V^2 / ((H0-E)^2 + V^2)` that `sh_pop1` adds to `pops[0]` (`f0^2`, `f1` in the
source), `E` the adiabatic energy of the occupied state. -/
def weight0 {H : Type} (r : Pop1Read H) (el : Electronic) : ℚ :=
  r.V * r.V / ((r.H0 - E_occupied r el) * (r.H0 - E_occupied r el) + r.V * r.V)

/-- The weight `(H0-E)^2 / ((H0-E)^2 + V^2)` that `sh_pop1` adds to `pops[1]` (`g0^2`, `g1` in
the source). -/
def weight1 {H : Type} (r : Pop1Read H) (el : Electronic) : ℚ :=
  (r.H0 - E_occupied r el) * (r.H0 - E_occupied r el)
    / ((r.H0 - E_occupied r el) * (r.H0 - E_occupied r el) + r.V * r.V)

/-- The number of trajectories `j < ntraj` that pass the window test of `sh_pop1`,
`mol[j].q[0] > xmin && mol[j].q[0] < xmax`. -/
def count_in_window {H : Type} (e : Ensemble H) (xmin xmax : ℚ) : Nat :=
  ((List.range e.ntraj).filter (fun j =>
    decide ((e.mol.getD j default).q.getD 0 0 > xmin ∧
      (e.mol.getD j default).q.getD 0 0 < xmax))).length

end libensemble

end libdyn

end liblibra

namespace libhamiltonian_qm

/-- Modelled from the spec: the dense real matrix class `MATRIX` that `Hamiltonian_HF.cpp`
uses (declared outside `src/`): the row and column counts and the row-major storage `M`,
where entry `(i, j)` of a matrix with `n` columns is `M[i*n + j]`. The storage accessor is
total. -/
structure MATRIX where
  num_of_rows : Nat
  num_of_cols : Nat
  M : Nat → ℚ

namespace MATRIX

/-- Modelled from the spec: `MATRIX::operator+`, the sum over the storage with the shape of the
left operand. -/
def plus (A B : MATRIX) : MATRIX :=
  { A with M := fun i => A.M i + B.M i }

/-- The in-place update `A->M[i] += x`. -/
def add_at (A : MATRIX) (i : Nat) (x : ℚ) : MATRIX :=
  { A with M := fun k => if k = i then A.M k + x else A.M k }

instance : Add MATRIX := ⟨plus⟩

end MATRIX

/-- Modelled from the spec: class `Electronic_Structure` (declared outside `src/`) as
`Hamiltonian_Fock_hf` uses it: the matrices behind the pointers `Hao`, `Sao`, `P`, `P_alp`,
`P_bet`, `Fao_alp`, `Fao_bet` and the Mulliken orbital populations. -/
structure Electronic_Structure where
  Hao : MATRIX
  Sao : MATRIX
  P : MATRIX
  P_alp : MATRIX
  P_bet : MATRIX
  Fao_alp : MATRIX
  Fao_bet : MATRIX
  Mull_orb_pop_gross : List ℚ
  Mull_orb_pop_net : List ℚ

/-- Modelled from the spec: an entry of `syst.Atoms` as `Hamiltonian_Fock_hf` uses it. -/
structure Atom where
  Atom_element : String
  Atom_mull_charge_gross : ℚ
  Atom_mull_charge_net : ℚ
deriving Inhabited

/-- Modelled from the spec: class `System` as `Hamiltonian_Fock_hf` uses it. -/
structure System where
  Number_of_atoms : Nat
  Atoms : List Atom

/-- Class `Control_Parameters`: the flag `use_rosh`. -/
structure Control_Parameters where
  use_rosh : Int

/-- Class `Model_Parameters` as `Hamiltonian_Fock_hf` uses it: `PT[element].Zeff` and
`hf_int.get_JK_values(a, b, c, d, J_abcd, K_adcb)`, which returns the pair
`(J_abcd, K_adcb)`; both are defined outside `src/` and taken as parameters. -/
structure Model_Parameters where
  PT_Zeff : String → ℚ
  get_JK_values : Nat → Nat → Nat → Nat → ℚ × ℚ

/-- The free functions `update_Mull_orb_pop(P, Sao, gross, net)` and
`update_Mull_charges(ao_to_atom_map, Zeff, orb_gross, orb_net, gross, net)`, defined outside
`src/` and taken as parameters; each returns the new values of its two output vectors. -/
structure Externals where
  update_Mull_orb_pop : MATRIX → MATRIX → List ℚ → List ℚ → List ℚ × List ℚ
  update_Mull_charges :
    List Nat → List ℚ → List ℚ → List ℚ → List ℚ → List ℚ → List ℚ × List ℚ

/-- The body of the innermost loop of `Hamiltonian_Fock_hf` for the indices `a, b, c, d`,
acting on the pair `(Fao_alp, Fao_bet)`. -/
def Fock_step (Norb : Nat) (prms : Control_Parameters) (modprms : Model_Parameters)
    (P P_alp P_bet : MATRIX) (a b c d : Nat) (F : MATRIX × MATRIX) : MATRIX × MATRIX :=
  let J_abcd := (modprms.get_JK_values a b c d).1
  let K_adcb := (modprms.get_JK_values a b c d).2
  if prms.use_rosh ≠ 0 then
    (F.1.add_at (a * Norb + b)
        (P.M (c * Norb + d) * J_abcd - (1/2 : ℚ) * P.M (c * Norb + d) * K_adcb),
     F.2.add_at (a * Norb + b)
        (P.M (c * Norb + d) * J_abcd - (1/2 : ℚ) * P.M (c * Norb + d) * K_adcb))
  else
    (F.1.add_at (a * Norb + b)
        (P.M (c * Norb + d) * J_abcd - P_alp.M (c * Norb + d) * K_adcb),
     F.2.add_at (a * Norb + b)
        (P.M (c * Norb + d) * J_abcd - P_bet.M (c * Norb + d) * K_adcb))

/-- The four nested loops of `Hamiltonian_Fock_hf`, "Formation of the Fock matrix: add Coulomb
and Exchange parts". -/
def Fock_loops (Norb : Nat) (prms : Control_Parameters) (modprms : Model_Parameters)
    (P P_alp P_bet : MATRIX) (F : MATRIX × MATRIX) : MATRIX × MATRIX :=
  (List.range Norb).foldl
    (fun F a => (List.range Norb).foldl
      (fun F b => (List.range Norb).foldl
        (fun F c => (List.range Norb).foldl
          (fun F d => Fock_step Norb prms modprms P P_alp P_bet a b c d F) F) F) F) F

/-- `Hamiltonian_Fock_hf(el, syst, basis_ao, prms, modprms, atom_to_ao_map, ao_to_atom_map)`;
returns the new values of `*el` and `syst`, or `none` where the source prints the dimension
message and calls `exit(0)`. -/
def Hamiltonian_Fock_hf {AO : Type} (X : Externals) (el : Electronic_Structure) (syst : System)
    (basis_ao : List AO) (prms : Control_Parameters) (modprms : Model_Parameters)
    (_atom_to_ao_map : List (List Nat)) (ao_to_atom_map : List Nat) :
    Option (Electronic_Structure × System) :=
  let Norb := basis_ao.length
  if Norb ≠ el.Hao.num_of_cols then none
  else
    let P := el.P_alp + el.P_bet
    let pop := X.update_Mull_orb_pop P el.Sao el.Mull_orb_pop_gross el.Mull_orb_pop_net
    let Zeff := (List.range syst.Number_of_atoms).foldl
      (fun Zeff a => Zeff.set a (modprms.PT_Zeff (syst.Atoms.getD a default).Atom_element))
      (List.replicate syst.Number_of_atoms (0 : ℚ))
    let charges := X.update_Mull_charges ao_to_atom_map Zeff pop.1 pop.2
      (List.replicate syst.Number_of_atoms (0 : ℚ)) (List.replicate syst.Number_of_atoms (0 : ℚ))
    let Atoms := (List.range syst.Number_of_atoms).foldl
      (fun Atoms a => Atoms.set a
        ⟨(Atoms.getD a default).Atom_element, charges.1.getD a 0, charges.2.getD a 0⟩)
      syst.Atoms
    let F := Fock_loops Norb prms modprms P el.P_alp el.P_bet (el.Hao, el.Hao)
    some
      (⟨el.Hao, el.Sao, P, el.P_alp, el.P_bet, F.1, F.2, pop.1, pop.2⟩,
       ⟨syst.Number_of_atoms, Atoms⟩)

/-- The amount the innermost loop body adds to `Fao_alp->M[a*Norb+b]` for the indices
`a, b, c, d`. -/
def Fock_term_alp (Norb : Nat) (prms : Control_Parameters) (modprms : Model_Parameters)
    (P P_alp : MATRIX) (a b c d : Nat) : ℚ :=
  if prms.use_rosh ≠ 0 then
    P.M (c * Norb + d) * (modprms.get_JK_values a b c d).1
      - (1/2 : ℚ) * P.M (c * Norb + d) * (modprms.get_JK_values a b c d).2
  else
    P.M (c * Norb + d) * (modprms.get_JK_values a b c d).1
      - P_alp.M (c * Norb + d) * (modprms.get_JK_values a b c d).2

/-- The amount the innermost loop body adds to `Fao_bet->M[a*Norb+b]` for the indices
`a, b, c, d`. -/
def Fock_term_bet (Norb : Nat) (prms : Control_Parameters) (modprms : Model_Parameters)
    (P P_bet : MATRIX) (a b c d : Nat) : ℚ :=
  if prms.use_rosh ≠ 0 then
    P.M (c * Norb + d) * (modprms.get_JK_values a b c d).1
      - (1/2 : ℚ) * P.M (c * Norb + d) * (modprms.get_JK_values a b c d).2
  else
    P.M (c * Norb + d) * (modprms.get_JK_values a b c d).1
      - P_bet.M (c * Norb + d) * (modprms.get_JK_values a b c d).2

/-- The four nested loops acting on one matrix: `F->M[a*n+b] += t a b c d` for all
`a, b, c, d < n`. -/
def cell_loops (n : Nat) (t : Nat → Nat → Nat → Nat → ℚ) (F : MATRIX) : MATRIX :=
  (List.range n).foldl
    (fun F a => (List.range n).foldl
      (fun F b => (List.range n).foldl
        (fun F c => (List.range n).foldl
          (fun F d => F.add_at (a * n + b) (t a b c d)) F) F) F) F

/-- The Fock matrix entry the construction is specified by: the core entry plus the sum over
`c, d < Norb` of `P[c,d] * J(a,b,c,d) - Ps[c,d] * K(a,d,c,b)`, where `Ps` is the spin density
and all entries are read in the row-major layout with `Norb` columns. -/
def Fock_entry (Norb : Nat) (modprms : Model_Parameters) (Hao P Ps : MATRIX) (a b : Nat) : ℚ :=
  Hao.M (a * Norb + b) +
    ∑ c in Finset.range Norb, ∑ d in Finset.range Norb,
      (P.M (c * Norb + d) * (modprms.get_JK_values a b c d).1
        - Ps.M (c * Norb + d) * (modprms.get_JK_values a b c d).2)

/-- Test input: external functions that leave the Mulliken vectors as they are. -/
def hf_ext : Externals where
  update_Mull_orb_pop := fun _ _ gross net => (gross, net)
  update_Mull_charges := fun _ _ _ _ gross net => (gross, net)

/-- Test input: `Zeff = 1` and the integral values `J = 1/(1+a+b+c+d)`, `K = 1/(2+a+d)`. -/
def hf_modprms : Model_Parameters where
  PT_Zeff := fun _ => 1
  get_JK_values := fun a b c d =>
    (1 / (1 + (a : ℚ) + b + c + d), 1 / (2 + (a : ℚ) + d))

/-- Test input: two orbitals, core Hamiltonian `[[0, 1], [2, 3]]` and the closed-shell
densities `P_alp = P_bet` with all entries `1/2`. -/
def hf_el : Electronic_Structure where
  Hao := ⟨2, 2, fun i => (i : ℚ)⟩
  Sao := ⟨2, 2, fun i => if i = 0 ∨ i = 3 then 1 else 0⟩
  P := ⟨2, 2, fun _ => 0⟩
  P_alp := ⟨2, 2, fun _ => 1 / 2⟩
  P_bet := ⟨2, 2, fun _ => 1 / 2⟩
  Fao_alp := ⟨2, 2, fun _ => 0⟩
  Fao_bet := ⟨2, 2, fun _ => 0⟩
  Mull_orb_pop_gross := [0, 0]
  Mull_orb_pop_net := [0, 0]

/-- Test input: one atom. -/
def hf_syst : System := ⟨1, [⟨"H", 0, 0⟩]⟩

end libhamiltonian_qm

open liblibra liblibra.libdyn liblibra.libdyn.libensemble

/-! ## Matrix algebra used by the integrators -/

theorem MATRIX_ext (a b : MATRIX) (hr : a.n_rows = b.n_rows) (hc : a.n_cols = b.n_cols)
    (hg : ∀ i j, a.get i j = b.get i j) : a = b := by
  cases a with
  | mk r c g =>
    cases b with
    | mk r2 c2 g2 =>
      simp only at hr hc hg
      subst hr hc
      have : g = g2 := funext (fun i => funext (fun j => hg i j))
      subst this
      rfl

theorem CMATRIX_ext (a b : CMATRIX) (hr : a.n_rows = b.n_rows) (hc : a.n_cols = b.n_cols)
    (hg : ∀ i j, a.get i j = b.get i j) : a = b := by
  cases a with
  | mk r c g =>
    cases b with
    | mk r2 c2 g2 =>
      simp only at hr hc hg
      subst hr hc
      have : g = g2 := funext (fun i => funext (fun j => hg i j))
      subst this
      rfl

theorem plus_get (m k : MATRIX) (i j : Nat) : (m + k).get i j = m.get i j + k.get i j := rfl

theorem times_get (m : MATRIX) (f : ℚ) (i j : Nat) : (m * f).get i j = m.get i j * f := rfl

theorem plus_n_rows (m k : MATRIX) : (m + k).n_rows = m.n_rows := rfl

theorem plus_n_cols (m k : MATRIX) : (m + k).n_cols = m.n_cols := rfl

theorem complex_zero_real : (0 : complex).real = 0 := rfl

/-- Column extraction commutes with a momentum update `p + F.real() * 0.5 * dt`. -/
theorem col_kick (p : MATRIX) (F : CMATRIX) (a dt : ℚ) (t : Nat) :
    (p + F.real * a * dt).col t = p.col t + (F.col t).real * a * dt := by
  apply MATRIX_ext
  · rfl
  · rfl
  · intro i j
    show (if j = 0 then (p.get i t + (F.get i t).real * a * dt) else 0)
      = (if j = 0 then p.get i t else 0) + (if j = 0 then F.get i t else 0).real * a * dt
    by_cases h : j = 0
    · simp only [if_pos h]
    · simp only [if_neg h, complex_zero_real]
      ring

/-- The inner loop of a coordinate update: column `traj`, rows below `ndof`. -/
theorem update_q_inner (ndof traj : Nat) (f : Nat → ℚ) (q : MATRIX) :
    (List.range ndof).foldl (fun q dof => q.add dof traj (f dof)) q
      = { q with get := fun a b => if a < ndof ∧ b = traj then q.get a b + f a else q.get a b } := by
  induction ndof with
  | zero =>
    apply MATRIX_ext <;> simp
  | succ k ih =>
    rw [List.range_succ, List.foldl_append, ih]
    apply MATRIX_ext
    · rfl
    · rfl
    · intro i j
      simp only [List.foldl_cons, List.foldl_nil, MATRIX.add]
      by_cases hj : j = traj
      · by_cases hi : i = k
        · subst hi hj
          simp
        · have h1 : ¬ (i = k ∧ j = traj) := fun h => hi h.1
          rw [if_neg h1]
          by_cases hlt : i < k
          · rw [if_pos ⟨hlt, hj⟩, if_pos ⟨Nat.lt_succ_of_lt hlt, hj⟩]
          · rw [if_neg (fun h => hlt h.1), if_neg]
            intro h
            have := h.1
            omega
      · rw [if_neg (fun h => hj h.2), if_neg (fun h => hj h.2), if_neg (fun h => hj h.2)]

/-- Closed form of the coordinate update of `Ehrenfest1`: every entry inside
`ndof x ntraj` receives `invM(dof,0) * p(dof,traj) * dt`, all other entries are untouched. -/
theorem update_q_get (ndof ntraj : Nat) (dt : ℚ) (q p invM : MATRIX) :
    update_q ndof ntraj dt q p invM
      = { q with get := fun a b =>
            if a < ndof ∧ b < ntraj then q.get a b + invM.get a 0 * p.get a b * dt
            else q.get a b } := by
  unfold update_q
  induction ntraj with
  | zero =>
    apply MATRIX_ext <;> simp
  | succ k ih =>
    rw [List.range_succ, List.foldl_append, ih]
    simp only [List.foldl_cons, List.foldl_nil]
    rw [update_q_inner ndof k (fun dof => invM.get dof 0 * p.get dof k * dt)]
    apply MATRIX_ext
    · rfl
    · rfl
    · intro i j
      simp only
      by_cases hi : i < ndof
      · by_cases hj : j = k
        · subst hj
          simp [hi]
        · by_cases hlt : j < k
          · simp [hi, hj, hlt, Nat.lt_succ_of_lt hlt]
          · have : ¬ j < k + 1 := by omega
            simp [hi, hj, hlt, this]
      · simp [hi]

/-! ## Population queries of the ensemble -/

theorem box_res_eq (m : Nuclear) (nnucl : Nat) (xmin xmax : ℚ) :
    box_res m nnucl xmin xmax =
      if ∀ n, n < nnucl → xmin ≤ m.q.getD n 0 ∧ m.q.getD n 0 ≤ xmax then 1 else 0 := by
  unfold box_res
  induction nnucl with
  | zero => simp
  | succ k ih =>
    rw [List.range_succ, List.foldl_append, ih]
    simp only [List.foldl_cons, List.foldl_nil]
    by_cases hk : m.q.getD k 0 < xmin ∨ m.q.getD k 0 > xmax
    · rw [if_pos hk, if_neg]
      intro hall
      have := hall k (Nat.lt_succ_self k)
      rcases hk with hk | hk
      · exact absurd this.1 (not_le.mpr hk)
      · exact absurd this.2 (not_le.mpr hk)
    · rw [if_neg hk]
      push_neg at hk
      by_cases hall : ∀ n, n < k → xmin ≤ m.q.getD n 0 ∧ m.q.getD n 0 ≤ xmax
      · rw [if_pos hall, if_pos]
        intro n hn
        rcases Nat.lt_succ_iff_lt_or_eq.mp hn with h | h
        · exact hall n h
        · subst h; exact hk
      · rw [if_neg hall, if_neg]
        intro h
        exact hall (fun n hn => h n (Nat.lt_succ_of_lt hn))

theorem length_fix_size (pops : List ℚ) (nelec : Nat) : (fix_size pops nelec).length = nelec := by
  unfold fix_size resize
  split_ifs with h
  · simp only [List.length_append, List.length_take, List.length_replicate]
    omega
  · push_neg at h
    exact h

theorem set_getElem_same {α : Type} (l : List α) (i : Nat) (hi : i < l.length) :
    l.set i l[i] = l := by
  apply List.ext_getElem
  · simp
  · intro n h1 h2
    rw [List.getElem_set]
    split_ifs with h
    · subst h; rfl
    · rfl

/-- The inner accumulation loop of a population query: entry `i` receives the sum of the
weights of the trajectories that pass the test. -/
theorem pop_fold_inner (l : List ℚ) (i n : Nat) (hi : i < l.length) (c : Nat → Prop)
    [DecidablePred c] (w : Nat → ℚ) :
    (List.range n).foldl (fun pops traj => if c traj then pops.set i (pops.getD i 0 + w traj) else pops) l
      = l.set i (l.getD i 0 + ∑ traj in Finset.range n, if c traj then w traj else 0) := by
  induction n with
  | zero =>
    simp only [List.range_zero, List.foldl_nil, Finset.range_zero, Finset.sum_empty, add_zero]
    rw [List.getD_eq_getElem _ _ hi]
    exact (set_getElem_same l i hi).symm
  | succ k ih =>
    rw [List.range_succ, List.foldl_append, ih, Finset.sum_range_succ]
    simp only [List.foldl_cons, List.foldl_nil]
    split_ifs with hc
    · rw [List.set_set, List.getD_eq_getElem _ _ (by simpa using hi), List.getElem_set_self]
      congr 1
      ring
    · simp

/-- The value a population query stores for state `i`: the accumulated weight divided by the
trajectory count. -/
theorem pop_fold_outer (l : List ℚ) (nelec ntraj : Nat) (hl : l.length = nelec)
    (c : Nat → Nat → Prop) [∀ i, DecidablePred (c i)] (w : Nat → Nat → ℚ) :
    (List.range nelec).foldl
      (fun pops i =>
        ((List.range ntraj).foldl
          (fun pops traj => if c i traj then pops.set i (pops.getD i 0 + w i traj) else pops)
          (pops.set i 0)).set i
          ((((List.range ntraj).foldl
          (fun pops traj => if c i traj then pops.set i (pops.getD i 0 + w i traj) else pops)
          (pops.set i 0))).getD i 0 / (ntraj : ℚ))) l
      = (List.range nelec).map (fun i =>
          (∑ traj in Finset.range ntraj, if c i traj then w i traj else 0) / (ntraj : ℚ)) := by
  have key : ∀ k, k ≤ nelec →
      (List.range k).foldl
      (fun pops i =>
        ((List.range ntraj).foldl
          (fun pops traj => if c i traj then pops.set i (pops.getD i 0 + w i traj) else pops)
          (pops.set i 0)).set i
          ((((List.range ntraj).foldl
          (fun pops traj => if c i traj then pops.set i (pops.getD i 0 + w i traj) else pops)
          (pops.set i 0))).getD i 0 / (ntraj : ℚ))) l
      = (List.range k).map (fun i =>
          (∑ traj in Finset.range ntraj, if c i traj then w i traj else 0) / (ntraj : ℚ))
        ++ l.drop k := by
    intro k
    induction k with
    | zero => intro _; simp
    | succ k ih =>
      intro hk
      have hk' : k < l.length := by omega
      rw [List.range_succ, List.foldl_append, ih (by omega)]
      simp only [List.foldl_cons, List.foldl_nil, List.map_append, List.map_cons, List.map_nil]
      rw [pop_fold_inner _ k ntraj (by simp; omega)]
      rw [List.set_set, List.set_set]
      rw [List.getD_eq_getElem _ _ (by simp; omega), List.getElem_set_self]
      rw [List.getD_eq_getElem _ _ (by simp; omega), List.getElem_set_self]
      rw [List.set_append_right _ _ (by simp)]
      rw [List.drop_eq_getElem_cons hk']
      simp only [List.length_map, List.length_range, Nat.sub_self, List.set_cons_zero, zero_add,
        List.append_assoc, List.singleton_append]
  have := key nelec le_rfl
  rw [this, ← hl, List.drop_length, List.append_nil]

/-- Closed form of `sh_pop`: one entry per state, the number of trajectories in that state and
inside the box (as a sum of ones) over the trajectory count. -/
theorem sh_pop_closed {H : Type} (e : Ensemble H) (pops : List ℚ) (xmin xmax : ℚ) :
    sh_pop e pops xmin xmax = (List.range e.nelec).map (fun (i : Nat) =>
      (∑ traj in Finset.range e.ntraj,
        if ((e.el.getD traj default).istate = (i : Int) ∧
            ∀ n, n < e.nnucl → xmin ≤ (e.mol.getD traj default).q.getD n 0 ∧
              (e.mol.getD traj default).q.getD n 0 ≤ xmax) then (1 : ℚ) else 0) / (e.ntraj : ℚ)) := by
  rw [← pop_fold_outer (fix_size pops e.nelec) e.nelec e.ntraj (length_fix_size _ _)
    (fun i traj => (e.el.getD traj default).istate = (i : Int) ∧
            ∀ n, n < e.nnucl → xmin ≤ (e.mol.getD traj default).q.getD n 0 ∧
              (e.mol.getD traj default).q.getD n 0 ≤ xmax) (fun _ _ => 1)]
  unfold sh_pop
  congr 1
  funext pops i
  have hin : ∀ l : List ℚ, (List.range e.ntraj).foldl
        (fun pops traj =>
          if (e.el.getD traj default).istate = (i : Int) then
            let res := box_res (e.mol.getD traj default) e.nnucl xmin xmax
            if res = 1 then pops.set i (pops.getD i 0 + 1) else pops
          else pops) l =
      (List.range e.ntraj).foldl
        (fun pops traj =>
          if ((e.el.getD traj default).istate = (i : Int) ∧
            ∀ n, n < e.nnucl → xmin ≤ (e.mol.getD traj default).q.getD n 0 ∧
              (e.mol.getD traj default).q.getD n 0 ≤ xmax)
          then pops.set i (pops.getD i 0 + 1) else pops) l := by
    intro l
    congr 1
    funext pops traj
    simp only [box_res_eq]
    by_cases h2 : ∀ n, n < e.nnucl → xmin ≤ (e.mol.getD traj default).q.getD n 0 ∧
        (e.mol.getD traj default).q.getD n 0 ≤ xmax
    · simp only [if_pos h2, if_true]
      by_cases h1 : (e.el.getD traj default).istate = (i : Int)
      · rw [if_pos h1, if_pos ⟨h1, h2⟩]
      · rw [if_neg h1, if_neg (fun h => h1 h.1)]
    · simp only [if_neg h2, if_false, zero_ne_one, ite_self]
      rw [if_neg (fun h => h2 h.2)]
  simp only [hin]

/-- Closed form of `se_pop`: for state `i` the weights `q[i]^2 + p[i]^2` of the trajectories
that are in state `i` and inside the box, over the trajectory count. -/
theorem se_pop_closed {H : Type} (e : Ensemble H) (pops : List ℚ) (xmin xmax : ℚ) :
    se_pop e pops xmin xmax = (List.range e.nelec).map (fun (i : Nat) =>
      (∑ traj in Finset.range e.ntraj,
        if ((e.el.getD traj default).istate = (i : Int) ∧
            ∀ n, n < e.nnucl → xmin ≤ (e.mol.getD traj default).q.getD n 0 ∧
              (e.mol.getD traj default).q.getD n 0 ≤ xmax) then
          ((e.el.getD traj default).q.getD i 0 * (e.el.getD traj default).q.getD i 0 +
            (e.el.getD traj default).p.getD i 0 * (e.el.getD traj default).p.getD i 0)
        else 0) / (e.ntraj : ℚ)) := by
  rw [← pop_fold_outer (fix_size pops e.nelec) e.nelec e.ntraj (length_fix_size _ _)
    (fun i traj => (e.el.getD traj default).istate = (i : Int) ∧
            ∀ n, n < e.nnucl → xmin ≤ (e.mol.getD traj default).q.getD n 0 ∧
              (e.mol.getD traj default).q.getD n 0 ≤ xmax)
    (fun i traj => ((e.el.getD traj default).q.getD i 0 * (e.el.getD traj default).q.getD i 0 +
            (e.el.getD traj default).p.getD i 0 * (e.el.getD traj default).p.getD i 0))]
  unfold se_pop
  congr 1
  funext pops i
  have hin : ∀ l : List ℚ, (List.range e.ntraj).foldl
        (fun pops traj =>
          if (e.el.getD traj default).istate = (i : Int) then
            let res := box_res (e.mol.getD traj default) e.nnucl xmin xmax
            if res = 1 then
              let q := (e.el.getD traj default).q.getD i 0
              let p := (e.el.getD traj default).p.getD i 0
              pops.set i (pops.getD i 0 + (q * q + p * p))
            else pops
          else pops) l =
      (List.range e.ntraj).foldl
        (fun pops traj =>
          if ((e.el.getD traj default).istate = (i : Int) ∧
            ∀ n, n < e.nnucl → xmin ≤ (e.mol.getD traj default).q.getD n 0 ∧
              (e.mol.getD traj default).q.getD n 0 ≤ xmax)
          then pops.set i (pops.getD i 0 +
            ((e.el.getD traj default).q.getD i 0 * (e.el.getD traj default).q.getD i 0 +
            (e.el.getD traj default).p.getD i 0 * (e.el.getD traj default).p.getD i 0))
          else pops) l := by
    intro l
    congr 1
    funext pops traj
    simp only [box_res_eq]
    by_cases h2 : ∀ n, n < e.nnucl → xmin ≤ (e.mol.getD traj default).q.getD n 0 ∧
        (e.mol.getD traj default).q.getD n 0 ≤ xmax
    · simp only [if_pos h2, if_true]
      by_cases h1 : (e.el.getD traj default).istate = (i : Int)
      · rw [if_pos h1, if_pos ⟨h1, h2⟩]
      · rw [if_neg h1, if_neg (fun h => h1 h.1)]
    · simp only [if_neg h2, if_false, zero_ne_one, ite_self]
      rw [if_neg (fun h => h2 h.2)]
  simp only [hin]

theorem sum_map_range (f : Nat → ℚ) (n : Nat) :
    ((List.range n).map f).sum = ∑ i in Finset.range n, f i := by
  induction n with
  | zero => simp
  | succ k ih =>
    rw [List.range_succ, List.map_append, List.sum_append, ih, Finset.sum_range_succ]
    simp

theorem sum_ones_eq_filter_length (P : Nat → Prop) [DecidablePred P] (n : Nat) :
    (∑ traj in Finset.range n, if P traj then (1 : ℚ) else 0)
      = (((List.range n).filter (fun t => decide (P t))).length : ℚ) := by
  induction n with
  | zero => simp
  | succ k ih =>
    rw [Finset.sum_range_succ, ih, List.range_succ, List.filter_append, List.length_append]
    by_cases h : P k
    · simp [h]
    · simp [h]

/-- Claim C9. Shape and value of the discrete population query: whatever the length and content
of the input vector, `sh_pop` returns exactly `nelec` entries, and entry `i` is the number of
trajectories in state `i` whose every nuclear coordinate lies in `[xmin, xmax]`, divided by
the total trajectory count `ntraj`. -/
theorem sh_pop_shape_value {H : Type} (e : Ensemble H) (pops : List ℚ) (xmin xmax : ℚ)
    (_hn : 1 ≤ e.ntraj) :
    (sh_pop e pops xmin xmax).length = e.nelec ∧
    ∀ i, i < e.nelec →
      (sh_pop e pops xmin xmax).getD i 0 = (count_in_box e i xmin xmax : ℚ) / (e.ntraj : ℚ) := by
  rw [sh_pop_closed]
  refine ⟨by simp, ?_⟩
  intro i hi
  rw [List.getD_eq_getElem _ _ (by simpa using hi)]
  simp only [List.getElem_map, List.getElem_range]
  rw [sum_ones_eq_filter_length]
  rfl

/-- Witness for claim C9: one trajectory, a three-entry input vector. -/
theorem sh_pop_shape_value_witness :
    1 ≤ ens_one.ntraj ∧
    (sh_pop ens_one [7, 7, 7] (-1) 1).length = ens_one.nelec ∧
    (sh_pop ens_one [7, 7, 7] (-1) 1).getD 0 0
      = (count_in_box ens_one 0 (-1) 1 : ℚ) / (ens_one.ntraj : ℚ) ∧
    (sh_pop ens_one [7, 7, 7] (-1) 1).getD 1 0
      = (count_in_box ens_one 1 (-1) 1 : ℚ) / (ens_one.ntraj : ℚ) :=
  ⟨by decide,
   (sh_pop_shape_value ens_one [7, 7, 7] (-1) 1 (by decide)).1,
   (sh_pop_shape_value ens_one [7, 7, 7] (-1) 1 (by decide)).2 0 (by decide),
   (sh_pop_shape_value ens_one [7, 7, 7] (-1) 1 (by decide)).2 1 (by decide)⟩

/-- Claim C6. Discrete-state population normalization: with at least one trajectory, every
occupied state in `0..nelec-1` and every nuclear coordinate of every trajectory inside
`[xmin, xmax]`, the values returned by `sh_pop` sum to exactly 1. -/
theorem sh_pop_sum_one {H : Type} (e : Ensemble H) (pops : List ℚ) (xmin xmax : ℚ)
    (hn : 1 ≤ e.ntraj)
    (hst : ∀ traj, traj < e.ntraj →
      0 ≤ (e.el.getD traj default).istate ∧ (e.el.getD traj default).istate < (e.nelec : Int))
    (hbox : ∀ traj, traj < e.ntraj → ∀ n, n < e.nnucl →
      xmin ≤ (e.mol.getD traj default).q.getD n 0 ∧ (e.mol.getD traj default).q.getD n 0 ≤ xmax) :
    (sh_pop e pops xmin xmax).sum = 1 := by
  rw [sh_pop_closed, sum_map_range, ← Finset.sum_div, Finset.sum_comm]
  have hone : ∀ traj ∈ Finset.range e.ntraj,
      (∑ i in Finset.range e.nelec,
        if ((e.el.getD traj default).istate = (i : Int) ∧
            ∀ n, n < e.nnucl → xmin ≤ (e.mol.getD traj default).q.getD n 0 ∧
              (e.mol.getD traj default).q.getD n 0 ≤ xmax) then (1 : ℚ) else 0) = 1 := by
    intro traj ht
    have ht' : traj < e.ntraj := Finset.mem_range.mp ht
    obtain ⟨h0, h1⟩ := hst traj ht'
    rw [Finset.sum_eq_single ((e.el.getD traj default).istate.toNat)]
    · rw [if_pos]
      exact ⟨(Int.toNat_of_nonneg h0).symm, hbox traj ht'⟩
    · intro b _ hb
      rw [if_neg]
      rintro ⟨hb', _⟩
      apply hb
      rw [hb']
      simp
    · intro hnot
      exfalso
      apply hnot
      rw [Finset.mem_range]
      omega
  rw [Finset.sum_congr rfl hone]
  simp only [Finset.sum_const, Finset.card_range, nsmul_eq_mul, mul_one]
  have : (e.ntraj : ℚ) ≠ 0 := by
    have : 0 < e.ntraj := hn
    positivity
  exact div_self this

/-- Witness for claim C6: one trajectory in state 0 inside the window `[-1, 1]`. -/
theorem sh_pop_sum_one_witness : (sh_pop ens_one [] (-1) 1).sum = 1 :=
  sh_pop_sum_one ens_one [] (-1) 1 (by decide)
    (by
      intro traj ht
      have h0 : traj = 0 := by
        have : traj < 1 := ht
        omega
      subst h0
      decide)
    (by
      intro traj ht n hn
      have h0 : traj = 0 := by
        have : traj < 1 := ht
        omega
      have h1 : n = 0 := by
        have : n < 1 := hn
        omega
      subst h0 h1
      simp [ens_one])

/-- Claim C8. Empty window gives zero: when no trajectory has all its nuclear coordinates inside
`[xmin, xmax]`, `se_pop` and `sh_pop` both return `nelec` zeros (so the sums over the states
are 0), whatever `pops` held before. -/
theorem pop_empty_window {H : Type} (e : Ensemble H) (pops : List ℚ) (xmin xmax : ℚ)
    (_hn : 1 ≤ e.ntraj) (_hq : 1 ≤ e.nnucl)
    (hout : ∀ traj, traj < e.ntraj →
      ¬ ∀ n, n < e.nnucl → xmin ≤ (e.mol.getD traj default).q.getD n 0 ∧
        (e.mol.getD traj default).q.getD n 0 ≤ xmax) :
    se_pop e pops xmin xmax = List.replicate e.nelec 0 ∧
    sh_pop e pops xmin xmax = List.replicate e.nelec 0 ∧
    (se_pop e pops xmin xmax).sum = 0 ∧ (sh_pop e pops xmin xmax).sum = 0 := by
  have hse : se_pop e pops xmin xmax = List.replicate e.nelec 0 := by
    rw [se_pop_closed]
    apply List.ext_getElem
    · simp
    · intro i h1 h2
      simp only [List.getElem_map, List.getElem_range, List.getElem_replicate]
      rw [Finset.sum_eq_zero, zero_div]
      intro traj ht
      rw [if_neg]
      exact fun h => hout traj (Finset.mem_range.mp ht) h.2
  have hsh : sh_pop e pops xmin xmax = List.replicate e.nelec 0 := by
    rw [sh_pop_closed]
    apply List.ext_getElem
    · simp
    · intro i h1 h2
      simp only [List.getElem_map, List.getElem_range, List.getElem_replicate]
      rw [Finset.sum_eq_zero, zero_div]
      intro traj ht
      rw [if_neg]
      exact fun h => hout traj (Finset.mem_range.mp ht) h.2
  refine ⟨hse, hsh, ?_, ?_⟩
  · rw [hse]; simp
  · rw [hsh]; simp

/-- Witness for claim C8: the trajectory at `q = 0` is outside the window `[1, 2]`. -/
theorem pop_empty_window_witness :
    se_pop ens_one [7, 7, 7] 1 2 = List.replicate ens_one.nelec 0 ∧
    sh_pop ens_one [7, 7, 7] 1 2 = List.replicate ens_one.nelec 0 ∧
    (se_pop ens_one [7, 7, 7] 1 2).sum = 0 ∧ (sh_pop ens_one [7, 7, 7] 1 2).sum = 0 :=
  pop_empty_window ens_one [7, 7, 7] 1 2 (by decide) (by decide)
    (by
      intro traj ht hall
      have h0 : traj = 0 := by
        have : traj < 1 := ht
        omega
      subst h0
      have := (hall 0 (by decide)).1
      norm_num [ens_one] at this)

/-- Claim C7. The amplitude-weighted query at a normalized trajectory: one trajectory in state 0
with amplitudes `(3/5, 4/5 i)` inside the window. Its squared amplitudes sum to 1, yet
`se_pop` returns `[9/25, 0]`: the weight `16/25` of state 1 is dropped because the trajectory
is not in state 1, and the returned values sum to `9/25`. -/
theorem se_pop_drops_unoccupied :
    (((List.range ens_one.nelec).map (fun i =>
        (ens_one.el.getD 0 default).q.getD i 0 * (ens_one.el.getD 0 default).q.getD i 0 +
        (ens_one.el.getD 0 default).p.getD i 0 * (ens_one.el.getD 0 default).p.getD i 0)).sum = 1) ∧
    (-1 ≤ (ens_one.mol.getD 0 default).q.getD 0 0 ∧ (ens_one.mol.getD 0 default).q.getD 0 0 ≤ 1) ∧
    se_pop ens_one [] (-1) 1 = [9/25, 0] ∧
    (se_pop ens_one [] (-1) 1).sum = 9/25 ∧
    (se_pop ens_one [] (-1) 1).sum ≠ 1 := by
  have h : se_pop ens_one [] (-1) 1 = [9/25, 0] := by
    norm_num [se_pop, fix_size, resize, box_res, ens_one, List.range_succ, List.replicate]
  refine ⟨?_, ?_, h, ?_, ?_⟩
  · norm_num [ens_one, List.range_succ]
  · norm_num [ens_one]
  · rw [h]; norm_num
  · rw [h]; norm_num

/-- Claim C10, counterexample to the claim as stated. A trajectory whose first coordinate equals `xmin` is counted
by `sh_pop` and `se_pop` but adds nothing to the result of `sh_pop1`: with the window `[0, 1]`
and `q[0] = 0`, `sh_pop1` returns `[0, 0]`, `sh_pop` returns `[1, 0]` and `se_pop` returns
`[9/25, 0]`; with the window `[-1, 1]` the same trajectory gives `sh_pop1 = [1/2, 1/2]`. -/
theorem sh_pop1_boundary_excluded :
    (ens_one.mol.getD 0 default).q.getD 0 0 = 0 ∧
    (sh_pop1 two_level ens_one [] 0 1).pops = [0, 0] ∧
    sh_pop ens_one [] 0 1 = [1, 0] ∧
    se_pop ens_one [] 0 1 = [9/25, 0] ∧
    (sh_pop1 two_level ens_one [] (-1) 1).pops = [1/2, 1/2] := by
  refine ⟨rfl, ?_, ?_, ?_, ?_⟩
  · norm_num [sh_pop1, sh_pop1_traj, sh_pop1_read, sh_pop1_add, sh_pop1_v, fix_size, resize,
      ens_one, two_level, List.range_succ, complex.real, List.replicate]
  · norm_num [sh_pop, fix_size, resize, box_res, ens_one, List.range_succ, List.replicate]
  · norm_num [se_pop, fix_size, resize, box_res, ens_one, List.range_succ, List.replicate]
  · norm_num [sh_pop1, sh_pop1_traj, sh_pop1_read, sh_pop1_add, sh_pop1_v, fix_size, resize,
      ens_one, two_level, List.range_succ, complex.real, List.replicate]

theorem foldl_id_of_forall {α β : Type} (f : α → β → α) (l : List β) (a : α)
    (h : ∀ x b, f x b = x) : l.foldl f a = a := by
  induction l generalizing a with
  | nil => rfl
  | cons b t ih => rw [List.foldl_cons, h, ih]

/-- Claim C10, amended. The window of `sh_pop1` is the open interval `(xmin, xmax)` on the first
nuclear coordinate. In one pass of the trajectory loop, a trajectory with `q[0] <= xmin` or
`q[0] >= xmax` leaves `pops` as it was; a trajectory with `xmin < q[0] < xmax` in state 0 or 1
of a two-state ensemble adds `V^2/((H0-E)^2+V^2)` to `pops[0]` and `(H0-E)^2/((H0-E)^2+V^2)` to
`pops[1]`, `E` being the adiabatic energy of its state. -/
theorem sh_pop1_window_open {H : Type} [Inhabited H] (ops : Hamiltonian H) (e : Ensemble H)
    (xmin xmax : ℚ) (s : Pop1State H) (j : Nat) :
    (((e.mol.getD j default).q.getD 0 0 ≤ xmin ∨ xmax ≤ (e.mol.getD j default).q.getD 0 0) →
      (sh_pop1_traj ops e xmin xmax s j).pops = s.pops) ∧
    ((xmin < (e.mol.getD j default).q.getD 0 0 ∧ (e.mol.getD j default).q.getD 0 0 < xmax) →
      e.nelec = 2 → s.pops.length = 2 →
      ((e.el.getD j default).istate = 0 ∨ (e.el.getD j default).istate = 1) →
      ∀ r E, r = sh_pop1_read ops (e.mol.getD j default)
          (sh_pop1_v (e.mol.getD j default) s.v_) (s.ham.getD j default) →
        E = (if (e.el.getD j default).istate = 0 then r.E0 else r.E1) →
        (sh_pop1_traj ops e xmin xmax s j).pops =
          [s.pops.getD 0 0 + r.V * r.V / ((r.H0 - E) * (r.H0 - E) + r.V * r.V),
           s.pops.getD 1 0 + (r.H0 - E) * (r.H0 - E) / ((r.H0 - E) * (r.H0 - E) + r.V * r.V)]) := by
  constructor
  · intro hout
    unfold sh_pop1_traj
    simp only
    apply foldl_id_of_forall
    intro x b
    unfold sh_pop1_add
    rw [if_neg]
    rintro ⟨h1, h2⟩
    rcases hout with h | h
    · exact absurd h1 (not_lt.mpr h)
    · exact absurd h2 (not_lt.mpr h)
  · intro hin hne hlen hst r E hr hE
    unfold sh_pop1_traj
    simp only
    rw [← hr, hne]
    match hp : s.pops, hlen with
    | [a, b], _ =>
      rcases hst with h0 | h1
      · rw [if_pos h0] at hE
        subst hE
        simp only [List.range_succ, List.range_zero, List.nil_append, List.cons_append,
          List.foldl_cons, List.foldl_nil]
        unfold sh_pop1_add
        simp only [if_pos hin, if_pos h0]
        simp
      · have hne0 : ¬ (e.el.getD j default).istate = 0 := by rw [h1]; decide
        rw [if_neg hne0] at hE
        subst hE
        simp only [List.range_succ, List.range_zero, List.nil_append, List.cons_append,
          List.foldl_cons, List.foldl_nil]
        unfold sh_pop1_add
        simp only [if_pos hin, if_neg hne0, if_pos h1]
        simp

/-- Witness for claim C10 (amended): the trajectory at `q[0] = 0` with the windows `(0, 1)` and
`(-1, 1)`. -/
theorem sh_pop1_window_open_witness :
    (sh_pop1_traj two_level ens_one 0 1 ⟨[0], [1], [0, 0]⟩ 0).pops = [0, 0] ∧
    (sh_pop1_traj two_level ens_one (-1) 1 ⟨[0], [1], [0, 0]⟩ 0).pops =
      [0 + 1 * 1 / ((0 - (-1)) * (0 - (-1)) + 1 * 1),
       0 + (0 - (-1)) * (0 - (-1)) / ((0 - (-1)) * (0 - (-1)) + 1 * 1)] :=
  ⟨(sh_pop1_window_open two_level ens_one 0 1 ⟨[0], [1], [0, 0]⟩ 0).1
      (Or.inl (by norm_num [ens_one])),
   (sh_pop1_window_open two_level ens_one (-1) 1 ⟨[0], [1], [0, 0]⟩ 0).2
      (by norm_num [ens_one]) rfl rfl (Or.inl rfl)
      (sh_pop1_read two_level (ens_one.mol.getD 0 default)
          (sh_pop1_v (ens_one.mol.getD 0 default) [0]) 1) (-1) rfl
      (by norm_num [sh_pop1_read, two_level, ens_one, complex.real])⟩

/-! ## The Ehrenfest integrators -/

/-- Claim C3. In the diabatic representation the bookkeeping corrections do nothing: whatever the
operations of the Hamiltonian and of the propagator are, and for every value of
`do_reordering` and `do_phase_correction`, `Ehrenfest2` with `rep = 0` returns the same `q`,
`p`, `C` and Hamiltonian object as `Ehrenfest1` with `rep = 0` (no snapshot, permutation or
phase enters the result). -/
theorem Ehrenfest2_diabatic_eq_Ehrenfest1 {S Py : Type} (M : Methods S Py)
    (dt : ℚ) (q p invM : MATRIX) (C : CMATRIX) (ham : nHamiltonian S) (py_funct params : Py)
    (do_reordering do_phase_correction : Int) :
    Ehrenfest2 M dt q p invM C ham py_funct params 0 do_reordering do_phase_correction
      = Ehrenfest1 M dt q p invM C ham py_funct params 0 := by
  unfold Ehrenfest2 Ehrenfest1
  simp only [if_true, zero_ne_one, if_false]

/-- The coordinate loop of `Ehrenfest0` on column `t` agrees with column `t` of the ensemble
coordinate update. -/
theorem update_q_col (ndof ntraj : Nat) (dt : ℚ) (q p invM : MATRIX) (t : Nat)
    (ht : t < ntraj) (hq : q.n_rows = ndof) :
    (update_q ndof ntraj dt q p invM).col t
      = (List.range (q.col t).n_rows).foldl
          (fun q0 dof => q0.add dof 0 (invM.get dof 0 * (p.col t).get dof 0 * dt)) (q.col t) := by
  rw [update_q_get, update_q_inner (q.col t).n_rows 0
    (fun dof => invM.get dof 0 * (p.col t).get dof 0 * dt)]
  apply MATRIX_ext
  · rfl
  · rfl
  · intro i j
    simp only [MATRIX.col]
    by_cases hj : j = 0
    · by_cases hi : i < ndof
      · simp [hj, hi, ht, hq]
      · simp [hj, hi, hq]
    · simp [hj]

/-- Claim C1. Ensemble batching equivalence. Assume that, for trajectory `t`, every batched
operation of the Hamiltonian acts on child `t` as the single-object operation acts on that
child with column `t` of the batched argument, that column `t` of the batched Ehrenfest force
is the single-object force, and that the batched propagator acts on column `t` as the
single-object propagator with child `t`. Then for `t < q.n_cols`, column `t` of `q`, `p` and
`C` after one `Ehrenfest1` step, and child `t` of the Hamiltonian, are what `Ehrenfest0`
returns on column `t` alone with child `t`. -/
theorem Ehrenfest1_column_eq_Ehrenfest0 {S Py : Type} (M : Methods S Py)
    (dt : ℚ) (q p invM : MATRIX) (C : CMATRIX) (ham : nHamiltonian S) (py_funct params : Py)
    (rep : Int) (t : Nat) (ht : t < q.n_cols)
    (h_nac_dia : ∀ p invM h, (M.compute_nac_dia_lvl p invM 0 1 h).children t
      = M.compute_nac_dia (p.col t) invM (h.children t))
    (h_hvib_dia : ∀ h, (M.compute_hvib_dia_lvl 1 h).children t
      = M.compute_hvib_dia (h.children t))
    (h_nac_adi : ∀ p invM h, (M.compute_nac_adi_lvl p invM 0 1 h).children t
      = M.compute_nac_adi (p.col t) invM (h.children t))
    (h_hvib_adi : ∀ h, (M.compute_hvib_adi_lvl 1 h).children t
      = M.compute_hvib_adi (h.children t))
    (h_f_dia : ∀ C h, (M.Ehrenfest_forces_dia_lvl C 1 h).col t
      = M.Ehrenfest_forces_dia (C.col t) 0 (h.children t))
    (h_f_adi : ∀ C h, (M.Ehrenfest_forces_adi_lvl C 1 h).col t
      = M.Ehrenfest_forces_adi (C.col t) 0 (h.children t))
    (h_dia : ∀ q h, (M.compute_diabatic_lvl py_funct q params 1 h).children t
      = M.compute_diabatic py_funct (q.col t) params (h.children t))
    (h_adi : ∀ h, (M.compute_adiabatic_lvl 1 1 h).children t
      = M.compute_adiabatic 1 (h.children t))
    (h_prop : ∀ τ C hs, (M.propagate_electronic_children τ C hs rep).col t
      = M.propagate_electronic τ (C.col t) (hs t) rep) :
    (Ehrenfest1 M dt q p invM C ham py_funct params rep).q.col t
      = (Ehrenfest0 M dt (q.col t) (p.col t) invM (C.col t) (ham.children t)
          py_funct params rep).q ∧
    (Ehrenfest1 M dt q p invM C ham py_funct params rep).p.col t
      = (Ehrenfest0 M dt (q.col t) (p.col t) invM (C.col t) (ham.children t)
          py_funct params rep).p ∧
    (Ehrenfest1 M dt q p invM C ham py_funct params rep).C.col t
      = (Ehrenfest0 M dt (q.col t) (p.col t) invM (C.col t) (ham.children t)
          py_funct params rep).C ∧
    (Ehrenfest1 M dt q p invM C ham py_funct params rep).ham.children t
      = (Ehrenfest0 M dt (q.col t) (p.col t) invM (C.col t) (ham.children t)
          py_funct params rep).ham := by
  unfold Ehrenfest1 Ehrenfest0
  by_cases h0 : rep = 0
  · subst h0
    simp only [if_true]
    simp only [h_prop, h_hvib_dia, h_nac_dia, h_f_dia, h_dia, h_adi, col_kick,
      update_q_col _ _ _ _ _ _ t ht rfl, and_self]
  · by_cases h1 : rep = 1
    · subst h1
      simp only [if_neg h0, if_true]
      simp only [h_prop, h_hvib_adi, h_nac_adi, h_f_adi, h_dia, h_adi, col_kick,
        update_q_col _ _ _ _ _ _ t ht rfl, and_self]
    · simp only [if_neg h0, if_neg h1]
      simp only [h_prop, h_dia, h_adi, update_q_col _ _ _ _ _ _ t ht rfl, and_self]

theorem complex_zero_mul (z : complex) : (0 : complex) * z = 0 := by
  show complex.mul ⟨0, 0⟩ z = ⟨0, 0⟩
  simp [complex.mul]

/-- Witness for claim C1: the two-trajectory test Hamiltonian, trajectory 1, adiabatic
representation. -/
theorem Ehrenfest1_column_eq_Ehrenfest0_witness :
    (1 : Nat) < two_traj_q.n_cols ∧
    (Ehrenfest1 oscillator (1/10) two_traj_q two_traj_p two_traj_invM two_traj_C two_traj_ham
        () () 1).q.col 1
      = (Ehrenfest0 oscillator (1/10) (two_traj_q.col 1) (two_traj_p.col 1) two_traj_invM
          (two_traj_C.col 1) (two_traj_ham.children 1) () () 1).q ∧
    (Ehrenfest1 oscillator (1/10) two_traj_q two_traj_p two_traj_invM two_traj_C two_traj_ham
        () () 1).p.col 1
      = (Ehrenfest0 oscillator (1/10) (two_traj_q.col 1) (two_traj_p.col 1) two_traj_invM
          (two_traj_C.col 1) (two_traj_ham.children 1) () () 1).p ∧
    (Ehrenfest1 oscillator (1/10) two_traj_q two_traj_p two_traj_invM two_traj_C two_traj_ham
        () () 1).C.col 1
      = (Ehrenfest0 oscillator (1/10) (two_traj_q.col 1) (two_traj_p.col 1) two_traj_invM
          (two_traj_C.col 1) (two_traj_ham.children 1) () () 1).C ∧
    (Ehrenfest1 oscillator (1/10) two_traj_q two_traj_p two_traj_invM two_traj_C two_traj_ham
        () () 1).ham.children 1
      = (Ehrenfest0 oscillator (1/10) (two_traj_q.col 1) (two_traj_p.col 1) two_traj_invM
          (two_traj_C.col 1) (two_traj_ham.children 1) () () 1).ham :=
  ⟨by decide,
   Ehrenfest1_column_eq_Ehrenfest0 oscillator (1/10) two_traj_q two_traj_p two_traj_invM
    two_traj_C two_traj_ham () () 1 1 (by decide)
    (fun p invM h => by simp [oscillator, MATRIX.col])
    (fun h => rfl)
    (fun p invM h => by simp [oscillator, MATRIX.col])
    (fun h => rfl)
    (fun C h => rfl)
    (fun C h => rfl)
    (fun q h => by simp [oscillator, MATRIX.col])
    (fun h => rfl)
    (fun τ C hs => by
      apply CMATRIX_ext
      · rfl
      · rfl
      · intro i j
        show (if j = 0 then C.get i 1 * cayley (τ * (hs 1).hvib) else 0)
          = (if j = 0 then C.get i 1 else 0) * cayley (τ * (hs 1).hvib)
        by_cases hj : j = 0
        · simp only [if_pos hj]
        · simp only [if_neg hj, complex_zero_mul])⟩

theorem kick_back (p F G : MATRIX) (dt : ℚ) :
    p + F * (1/2 : ℚ) * dt + G * (1/2 : ℚ) * dt + G * (1/2 : ℚ) * (-dt) = p + F * (1/2 : ℚ) * dt := by
  apply MATRIX_ext
  · rfl
  · rfl
  · intro i j
    simp only [plus_get, times_get]
    ring

theorem kick_back_one (p F : MATRIX) (dt : ℚ) :
    p + F * (1/2 : ℚ) * dt + F * (1/2 : ℚ) * (-dt) = p := by
  apply MATRIX_ext
  · rfl
  · rfl
  · intro i j
    simp only [plus_get, times_get]
    ring

theorem update_q_back (ndof ntraj : Nat) (dt : ℚ) (q p invM : MATRIX) :
    update_q ndof ntraj (-dt) (update_q ndof ntraj dt q p invM) p invM = q := by
  rw [update_q_get, update_q_get]
  apply MATRIX_ext
  · rfl
  · rfl
  · intro i j
    simp only
    split_ifs
    · ring
    · rfl

theorem update_q_n_rows (ndof ntraj : Nat) (dt : ℚ) (q p invM : MATRIX) :
    (update_q ndof ntraj dt q p invM).n_rows = q.n_rows := by
  rw [update_q_get]

theorem update_q_n_cols (ndof ntraj : Nat) (dt : ℚ) (q p invM : MATRIX) :
    (update_q ndof ntraj dt q p invM).n_cols = q.n_cols := by
  rw [update_q_get]

/-- The step `Ehrenfest1` written with the blocks `update_hvib`, `forces` and `recompute`,
for `rep` 0 or 1. -/
theorem Ehrenfest1_steps {S Py : Type} (M : Methods S Py)
    (dt : ℚ) (q p invM : MATRIX) (C : CMATRIX) (ham : nHamiltonian S) (py_funct params : Py)
    (rep : Int) (hrep : rep = 0 ∨ rep = 1)
    (h1 h2 h3 : nHamiltonian S) (C1 C2 : CMATRIX) (p1 p2 q1 : MATRIX)
    (hh1 : h1 = update_hvib M rep p invM ham)
    (hC1 : C1 = M.propagate_electronic_children ((1/2) * dt) C h1.children rep)
    (hp1 : p1 = p + (forces M rep C1 h1).real * (1/2 : ℚ) * dt)
    (hq1 : q1 = update_q q.n_rows q.n_cols dt q p1 invM)
    (hh2 : h2 = recompute M py_funct params q1 h1)
    (hp2 : p2 = p1 + (forces M rep C1 h2).real * (1/2 : ℚ) * dt)
    (hh3 : h3 = update_hvib M rep p2 invM h2)
    (hC2 : C2 = M.propagate_electronic_children ((1/2) * dt) C1 h3.children rep) :
    Ehrenfest1 M dt q p invM C ham py_funct params rep = ⟨q1, p2, C2, h3⟩ := by
  rw [hC2, hh3, hp2, hh2, hq1, hp1, hC1, hh1]
  unfold Ehrenfest1 update_hvib recompute forces
  rcases hrep with h | h <;> subst h <;> simp

/-- Claim C2. Reversibility of `Ehrenfest1`. Let `At q h` say that the Hamiltonian object `h` is
the one computed at the geometry `q`, and assume: the state on entry is the one computed at
`q`; recomputing the Hamiltonian at a geometry gives the state computed there and updating
NAC/Hvib keeps it (the callback is a deterministic function of geometry); the Ehrenfest force
is the same for all states computed at one geometry; and propagating by `-τ` after `τ` under
Hvib computed at the same geometry from the same momenta is the identity. Then for `rep` 0 or
1, a step of size `dt` followed by a step of size `-dt` returns `q`, `p` and `C` exactly. -/
theorem Ehrenfest1_reversible {S Py : Type} (M : Methods S Py)
    (dt : ℚ) (q p invM : MATRIX) (C : CMATRIX) (ham : nHamiltonian S) (py_funct params : Py)
    (rep : Int) (hrep : rep = 0 ∨ rep = 1)
    (At : MATRIX → nHamiltonian S → Prop)
    (h_entry : At q ham)
    (h_recompute : ∀ q h, At q (recompute M py_funct params q h))
    (h_hvib : ∀ q p h, At q h → At q (update_hvib M rep p invM h))
    (h_force : ∀ q C h g, At q h → At q g → forces M rep C h = forces M rep C g)
    (h_prop : ∀ q p τ C h g, At q h → At q g →
      M.propagate_electronic_children (-τ)
        (M.propagate_electronic_children τ C (update_hvib M rep p invM h).children rep)
        (update_hvib M rep p invM g).children rep = C) :
    (Ehrenfest1 M (-dt)
        (Ehrenfest1 M dt q p invM C ham py_funct params rep).q
        (Ehrenfest1 M dt q p invM C ham py_funct params rep).p invM
        (Ehrenfest1 M dt q p invM C ham py_funct params rep).C
        (Ehrenfest1 M dt q p invM C ham py_funct params rep).ham py_funct params rep).q = q ∧
    (Ehrenfest1 M (-dt)
        (Ehrenfest1 M dt q p invM C ham py_funct params rep).q
        (Ehrenfest1 M dt q p invM C ham py_funct params rep).p invM
        (Ehrenfest1 M dt q p invM C ham py_funct params rep).C
        (Ehrenfest1 M dt q p invM C ham py_funct params rep).ham py_funct params rep).p = p ∧
    (Ehrenfest1 M (-dt)
        (Ehrenfest1 M dt q p invM C ham py_funct params rep).q
        (Ehrenfest1 M dt q p invM C ham py_funct params rep).p invM
        (Ehrenfest1 M dt q p invM C ham py_funct params rep).C
        (Ehrenfest1 M dt q p invM C ham py_funct params rep).ham py_funct params rep).C = C := by
  -- the intermediate values of the forward step
  obtain ⟨h1, hh1⟩ : ∃ h1, h1 = update_hvib M rep p invM ham := ⟨_, rfl⟩
  obtain ⟨C1, hC1⟩ : ∃ C1, C1 = M.propagate_electronic_children ((1/2) * dt) C h1.children rep :=
    ⟨_, rfl⟩
  obtain ⟨p1, hp1⟩ : ∃ p1, p1 = p + (forces M rep C1 h1).real * (1/2 : ℚ) * dt := ⟨_, rfl⟩
  obtain ⟨q1, hq1⟩ : ∃ q1, q1 = update_q q.n_rows q.n_cols dt q p1 invM := ⟨_, rfl⟩
  obtain ⟨h2, hh2⟩ : ∃ h2, h2 = recompute M py_funct params q1 h1 := ⟨_, rfl⟩
  obtain ⟨p2, hp2⟩ : ∃ p2, p2 = p1 + (forces M rep C1 h2).real * (1/2 : ℚ) * dt := ⟨_, rfl⟩
  obtain ⟨h3, hh3⟩ : ∃ h3, h3 = update_hvib M rep p2 invM h2 := ⟨_, rfl⟩
  obtain ⟨C2, hC2⟩ : ∃ C2, C2 = M.propagate_electronic_children ((1/2) * dt) C1 h3.children rep :=
    ⟨_, rfl⟩
  have hfwd : Ehrenfest1 M dt q p invM C ham py_funct params rep = ⟨q1, p2, C2, h3⟩ :=
    Ehrenfest1_steps M dt q p invM C ham py_funct params rep hrep h1 h2 h3 C1 C2 p1 p2 q1
      hh1 hC1 hp1 hq1 hh2 hp2 hh3 hC2
  -- the states computed at the two geometries
  have a1 : At q h1 := hh1 ▸ h_hvib q p ham h_entry
  have a2 : At q1 h2 := hh2 ▸ h_recompute q1 h1
  have a3 : At q1 h3 := hh3 ▸ h_hvib q1 p2 h2 a2
  -- the backward step undoes the forward one block by block
  obtain ⟨h4, hh4⟩ : ∃ h4, h4 = update_hvib M rep p2 invM h3 := ⟨_, rfl⟩
  have a4 : At q1 h4 := hh4 ▸ h_hvib q1 p2 h3 a3
  have hC3 : C1 = M.propagate_electronic_children ((1/2) * (-dt)) C2 h4.children rep := by
    rw [hC2, hh3, hh4, show (1/2 : ℚ) * (-dt) = -((1/2) * dt) by ring]
    exact (h_prop q1 p2 ((1/2) * dt) C1 h2 h3 a2 a3).symm
  have hp3 : p1 = p2 + (forces M rep C1 h4).real * (1/2 : ℚ) * (-dt) := by
    rw [h_force q1 C1 h4 h2 a4 a2, hp2]
    exact (kick_back_one _ _ _).symm
  have hq2 : q = update_q q1.n_rows q1.n_cols (-dt) q1 p1 invM := by
    rw [hq1, update_q_n_rows, update_q_n_cols]
    exact (update_q_back _ _ _ _ _ _).symm
  obtain ⟨h5, hh5⟩ : ∃ h5, h5 = recompute M py_funct params q h4 := ⟨_, rfl⟩
  have a5 : At q h5 := hh5 ▸ h_recompute q h4
  have hp4 : p = p1 + (forces M rep C1 h5).real * (1/2 : ℚ) * (-dt) := by
    rw [h_force q C1 h5 h1 a5 a1, hp1]
    exact (kick_back_one _ _ _).symm
  have hC4 : C = M.propagate_electronic_children ((1/2) * (-dt)) C1
      (update_hvib M rep p invM h5).children rep := by
    rw [hC1, hh1, show (1/2 : ℚ) * (-dt) = -((1/2) * dt) by ring]
    exact (h_prop q p ((1/2) * dt) C ham h5 h_entry a5).symm
  have hbwd : Ehrenfest1 M (-dt) q1 p2 invM C2 h3 py_funct params rep
      = ⟨q, p, C, update_hvib M rep p invM h5⟩ :=
    Ehrenfest1_steps M (-dt) q1 p2 invM C2 h3 py_funct params rep hrep h4 h5
      (update_hvib M rep p invM h5) C1 C p1 p q hh4 hC3 hp3 hq2 hh5 hp4 rfl hC4
  rw [hfwd]
  simp only
  rw [hbwd]
  exact ⟨rfl, rfl, rfl⟩

theorem complex_ext (z w : complex) (hr : z.re = w.re) (hi : z.im = w.im) : z = w := by
  cases z
  cases w
  simp only at hr hi
  subst hr hi
  rfl

theorem complex_mul_re (z w : complex) : (z * w).re = z.re * w.re - z.im * w.im := rfl

theorem complex_mul_im (z w : complex) : (z * w).im = z.re * w.im + z.im * w.re := rfl

/-- The rotation `cayley (-x)` undoes the rotation `cayley x`. -/
theorem cayley_back (z : complex) (x : ℚ) : z * cayley x * cayley (-x) = z := by
  have hx : 1 + x * x ≠ 0 := by
    have : 0 ≤ x * x := mul_self_nonneg x
    linarith
  apply complex_ext
  · simp only [complex_mul_re, complex_mul_im, cayley, neg_mul_neg]
    field_simp
    ring
  · simp only [complex_mul_re, complex_mul_im, cayley, neg_mul_neg]
    field_simp
    ring

/-- Witness for claim C2: the two-trajectory test Hamiltonian, `dt = 1/10`; `At q h` says that
every child of `h` stores the harmonic force at its column of `q`. -/
theorem Ehrenfest1_reversible_witness :
    (Ehrenfest1 oscillator (-(1/10))
        (Ehrenfest1 oscillator (1/10) two_traj_q two_traj_p two_traj_invM two_traj_C
          two_traj_ham () () 1).q
        (Ehrenfest1 oscillator (1/10) two_traj_q two_traj_p two_traj_invM two_traj_C
          two_traj_ham () () 1).p two_traj_invM
        (Ehrenfest1 oscillator (1/10) two_traj_q two_traj_p two_traj_invM two_traj_C
          two_traj_ham () () 1).C
        (Ehrenfest1 oscillator (1/10) two_traj_q two_traj_p two_traj_invM two_traj_C
          two_traj_ham () () 1).ham () () 1).q = two_traj_q ∧
    (Ehrenfest1 oscillator (-(1/10))
        (Ehrenfest1 oscillator (1/10) two_traj_q two_traj_p two_traj_invM two_traj_C
          two_traj_ham () () 1).q
        (Ehrenfest1 oscillator (1/10) two_traj_q two_traj_p two_traj_invM two_traj_C
          two_traj_ham () () 1).p two_traj_invM
        (Ehrenfest1 oscillator (1/10) two_traj_q two_traj_p two_traj_invM two_traj_C
          two_traj_ham () () 1).C
        (Ehrenfest1 oscillator (1/10) two_traj_q two_traj_p two_traj_invM two_traj_C
          two_traj_ham () () 1).ham () () 1).p = two_traj_p ∧
    (Ehrenfest1 oscillator (-(1/10))
        (Ehrenfest1 oscillator (1/10) two_traj_q two_traj_p two_traj_invM two_traj_C
          two_traj_ham () () 1).q
        (Ehrenfest1 oscillator (1/10) two_traj_q two_traj_p two_traj_invM two_traj_C
          two_traj_ham () () 1).p two_traj_invM
        (Ehrenfest1 oscillator (1/10) two_traj_q two_traj_p two_traj_invM two_traj_C
          two_traj_ham () () 1).C
        (Ehrenfest1 oscillator (1/10) two_traj_q two_traj_p two_traj_invM two_traj_C
          two_traj_ham () () 1).ham () () 1).C = two_traj_C :=
  Ehrenfest1_reversible oscillator (1/10) two_traj_q two_traj_p two_traj_invM two_traj_C
    two_traj_ham () () 1 (Or.inr rfl)
    (fun q h => ∀ t, (h.children t).force = -q.get 0 t)
    (fun t => rfl)
    (fun q h t => rfl)
    (fun q p h hq t => hq t)
    (fun q C h g hh hg => by
      apply CMATRIX_ext
      · rfl
      · rfl
      · intro i j
        show (⟨(h.children j).force, 0⟩ : complex) = ⟨(g.children j).force, 0⟩
        rw [hh j, hg j])
    (fun q p τ C h g hh hg => by
      apply CMATRIX_ext
      · rfl
      · rfl
      · intro i j
        show C.get i j * cayley (τ * (two_traj_invM.get 0 0 * p.get 0 j))
            * cayley (-τ * (two_traj_invM.get 0 0 * p.get 0 j)) = C.get i j
        rw [neg_mul]
        exact cayley_back _ _)

/-! ## Reordering and phase correction in `Ehrenfest2` -/

/-- Writing a column through `push_submatrix` with the row stencil `0..n-1` and the column
stencil `[t]`: rows below `n` of column `t` are replaced, everything else is kept. -/
theorem push_submatrix_col (X x : CMATRIX) (n t : Nat) :
    push_submatrix X x (List.range n) [t]
      = { X with get := fun a b => if a < n ∧ b = t then x.get a 0 else X.get a b } := by
  unfold push_submatrix
  simp only [List.length_range, List.length_singleton, List.range_succ, List.range_zero,
    List.nil_append, List.foldl_cons, List.foldl_nil, List.getD_cons_zero]
  have key : ∀ k, k ≤ n →
      (List.range k).foldl (fun X i => X.set ((List.range n).getD i 0) t (x.get i 0)) X
        = { X with get := fun a b => if a < k ∧ b = t then x.get a 0 else X.get a b } := by
    intro k
    induction k with
    | zero =>
      intro _
      apply CMATRIX_ext <;> simp
    | succ k ih =>
      intro hk
      rw [List.range_succ, List.foldl_append, ih (by omega)]
      simp only [List.foldl_cons, List.foldl_nil]
      have hget : (List.range n).getD k 0 = k := by
        rw [List.getD_eq_getElem _ _ (by simpa using hk)]
        simp
      rw [hget]
      apply CMATRIX_ext
      · rfl
      · rfl
      · intro i j
        simp only [CMATRIX.set]
        by_cases hj : j = t
        · by_cases hi : i = k
          · subst hi hj
            simp
          · have h1 : ¬ (i = k ∧ j = t) := fun h => hi h.1
            rw [if_neg h1]
            by_cases hlt : i < k
            · rw [if_pos ⟨hlt, hj⟩, if_pos ⟨Nat.lt_succ_of_lt hlt, hj⟩]
            · rw [if_neg (fun h => hlt h.1), if_neg]
              intro h
              have := h.1
              omega
        · rw [if_neg (fun h => hj h.2), if_neg (fun h => hj h.2), if_neg (fun h => hj h.2)]
  exact key n le_rfl

theorem complex_norm_mul_conj (z w : complex) : (z * w.conj).norm = z.norm * w.norm := by
  simp only [complex.norm, complex_mul_re, complex_mul_im, complex.conj]
  ring

theorem map_getD_range_eq {α : Type} (l : List α) (d : Nat → α) :
    (List.range l.length).map (fun i => l.getD i (d i)) = l := by
  apply List.ext_getElem
  · simp
  · intro n h1 h2
    simp only [List.getElem_map, List.getElem_range]
    exact List.getD_eq_getElem _ _ h2

/-- Claim C4. Norm preservation by the corrections of `Ehrenfest2` (adiabatic branch), with
`C.n_rows = ham.nadi` and the row stencil `0..nadi-1`. For every trajectory `traj`: the
reordering step (column `traj` of `C`, rows permuted by the result of `get_reordering`,
written back) leaves `sum_i |C(i,t)|^2` unchanged for every column `t` whenever that result
is a permutation of `0..nadi-1`; the phase-correction step (`phase_correct_ampl` with the
vector returned by `update_phases`, written back) leaves it unchanged whenever every phase
has modulus 1. -/
theorem corrections_preserve_norm {S Py : Type} (M : Methods S Py) (Uprev : List CMATRIX)
    (ham : nHamiltonian S) (C : CMATRIX) (traj t : Nat) (hC : C.n_rows = ham.nadi) :
    ((M.get_reordering ((Uprev.getD traj ⟨0, 0, fun _ _ => 0⟩).H *
          M.get_basis_transform (ham.children traj))).Perm (List.range ham.nadi) →
      col_norm (reorder_traj M Uprev (List.range C.n_rows) (ham, C) traj).2 t ham.nadi
        = col_norm C t ham.nadi) ∧
    ((∀ i, i < ham.nadi →
        ((M.update_phases (Uprev.getD traj ⟨0, 0, fun _ _ => 0⟩) 1
          (ham.children traj)).1.get i 0).norm = 1) →
      col_norm (phase_traj M Uprev (List.range C.n_rows) (ham, C) traj).2 t ham.nadi
        = col_norm C t ham.nadi) := by
  constructor
  · intro hperm
    unfold reorder_traj col_norm
    simp only
    rw [push_submatrix_col]
    simp only
    obtain ⟨perm, hdef⟩ : ∃ perm, perm = M.get_reordering
        ((Uprev.getD traj ⟨0, 0, fun _ _ => 0⟩).H * M.get_basis_transform (ham.children traj)) :=
      ⟨_, rfl⟩
    rw [← hdef] at hperm ⊢
    by_cases ht : t = traj
    · subst ht
      have hlen := hperm.length_eq
      rw [List.length_range] at hlen
      have hmap : (List.range ham.nadi).map (fun i =>
          (if i < C.n_rows ∧ t = t then ((C.col t).permute_rows perm).get i 0
          else C.get i t).norm)
          = perm.map (fun i => (C.get i t).norm) := by
        conv_rhs => rw [← map_getD_range_eq perm (fun i => i), hlen, List.map_map]
        apply List.map_congr_left
        intro i hi
        have hi' : i < ham.nadi := List.mem_range.mp hi
        rw [if_pos ⟨hC ▸ hi', rfl⟩]
        simp only [CMATRIX.permute_rows, CMATRIX.col, Function.comp, if_true]
        rw [if_pos (hC ▸ hi')]
      rw [hmap]
      exact (hperm.map _).sum_eq
    · congr 1
      apply List.map_congr_left
      intro i _
      rw [if_neg (fun h => ht h.2)]
  · intro hph
    unfold phase_traj col_norm
    simp only
    rw [push_submatrix_col]
    simp only
    congr 1
    apply List.map_congr_left
    intro i hi
    have hi' : i < ham.nadi := List.mem_range.mp hi
    by_cases ht : t = traj
    · subst ht
      rw [if_pos ⟨hC ▸ hi', rfl⟩]
      simp only [phase_correct_ampl, CMATRIX.col, if_true]
      rw [if_pos ⟨hC ▸ hi', trivial⟩, complex_norm_mul_conj, hph i hi', mul_one]
    · rw [if_neg (fun h => ht h.2)]

/-- Witness for claim C4: two states swapped by the reordering, phases `i` and `-1`. -/
theorem corrections_preserve_norm_witness :
    col_norm (reorder_traj swap_ops [] (List.range two_state_C.n_rows)
        (two_state_ham, two_state_C) 0).2 0 two_state_ham.nadi
      = col_norm two_state_C 0 two_state_ham.nadi ∧
    col_norm (phase_traj swap_ops [] (List.range two_state_C.n_rows)
        (two_state_ham, two_state_C) 0).2 0 two_state_ham.nadi
      = col_norm two_state_C 0 two_state_ham.nadi :=
  ⟨(corrections_preserve_norm swap_ops [] two_state_ham two_state_C 0 0 rfl).1
      (List.Perm.swap 0 1 []),
   (corrections_preserve_norm swap_ops [] two_state_ham two_state_C 0 0 rfl).2
      (by
        intro i hi
        have h2 : i < 2 := hi
        interval_cases i
        · norm_num [swap_ops, complex.norm]
        · norm_num [swap_ops, complex.norm])⟩

theorem complex_norm_one : (1 : complex).norm = 1 := by
  show (1 : ℚ) * 1 + 0 * 0 = 1
  norm_num

theorem complex_norm_zero : (0 : complex).norm = 0 := by
  show (0 : ℚ) * 0 + 0 * 0 = 0
  norm_num

theorem complex_mul_one (z : complex) : z * 1 = z := by
  apply complex_ext
  · show z.re * 1 - z.im * 0 = z.re
    ring
  · show z.re * 0 + z.im * 1 = z.im
    ring

theorem complex_conj_one : (1 : complex).conj = 1 := by
  apply complex_ext
  · rfl
  · show -(0 : ℚ) = 0
    norm_num

theorem complex_one_mul (z : complex) : (1 : complex) * z = z := by
  apply complex_ext
  · show 1 * z.re - 0 * z.im = z.re
    ring
  · show 1 * z.im + 0 * z.re = z.im
    ring

/-- On the identity overlap matrix the free new state of largest overlap with the old state
`k` is `k` itself. -/
theorem best_free_identity (X : CMATRIX) (n k : Nat) (hc : X.n_cols = n) (hk : k < n)
    (hX : ∀ i j, i < n → j < n → X.get i j = if i = j then 1 else 0) :
    best_free X k (List.range k) = some k := by
  unfold best_free
  rw [hc]
  have key : ∀ m, m ≤ n →
      (List.range m).foldl
        (fun best j =>
          if j ∈ List.range k then best
          else match best with
            | none => some j
            | some b => if (X.get k b).norm < (X.get k j).norm then some j else some b)
        none = if m ≤ k then none else some k := by
    intro m
    induction m with
    | zero => intro _; simp
    | succ m ih =>
      intro hm
      rw [List.range_succ, List.foldl_append, ih (by omega)]
      simp only [List.foldl_cons, List.foldl_nil, List.mem_range]
      by_cases h1 : m < k
      · rw [if_pos h1, if_pos (by omega), if_pos (by omega)]
      · rw [if_neg h1]
        by_cases h2 : m = k
        · subst h2
          rw [if_pos le_rfl, if_neg (by omega)]
        · rw [if_neg (by omega), if_neg (by omega)]
          simp only
          have hkm : ¬ k = m := by omega
          have hmn : m < n := by omega
          rw [hX k k hk hk, hX k m hk hmn, if_pos rfl, if_neg hkm,
            complex_norm_one, complex_norm_zero, if_neg (by norm_num)]
  rw [key n le_rfl, if_neg (by omega)]

/-- The greedy assignment derived from the identity overlap matrix is the identity
permutation. -/
theorem get_reordering_identity (X : CMATRIX) (n : Nat) (hr : X.n_rows = n) (hc : X.n_cols = n)
    (hX : ∀ i j, i < n → j < n → X.get i j = if i = j then 1 else 0) :
    get_reordering X = List.range n := by
  unfold get_reordering
  rw [hr]
  have key : ∀ k, k ≤ n →
      (List.range k).foldl (fun perm i => perm ++ [(best_free X i perm).getD i]) []
        = List.range k := by
    intro k
    induction k with
    | zero => intro _; rfl
    | succ k ih =>
      intro hk
      rw [List.range_succ, List.foldl_append, ih (by omega)]
      simp only [List.foldl_cons, List.foldl_nil]
      rw [best_free_identity X n k hc (by omega) hX]
      rfl
  exact key n le_rfl

theorem getD_range_self (n a : Nat) : (List.range n).getD a a = a := by
  by_cases h : a < n
  · rw [List.getD_eq_getElem _ _ (by simpa using h)]
    simp
  · rw [List.getD_eq_default _ _ (by simpa using h)]

theorem permute_rows_identity (m : CMATRIX) (n : Nat) : m.permute_rows (List.range n) = m := by
  apply CMATRIX_ext
  · rfl
  · rfl
  · intro i j
    simp only [CMATRIX.permute_rows, getD_range_self, ite_self]

theorem permute_cols_identity (m : CMATRIX) (n : Nat) : m.permute_cols (List.range n) = m := by
  apply CMATRIX_ext
  · rfl
  · rfl
  · intro i j
    simp only [CMATRIX.permute_cols, getD_range_self, ite_self]

/-- Relabeling by the identity permutation leaves the handle as it is. -/
theorem update_ordering_identity (n : Nat) (lvl : Int) (h : Handle) :
    update_ordering (List.range n) lvl h = h := by
  unfold update_ordering relabel
  simp only [permute_rows_identity, permute_cols_identity]

/-- The phase vector of two identical unitary transforms is all ones. -/
theorem phase_vector_identity (sqrt : ℚ → ℚ) (hs : sqrt 1 = 1) (U : CMATRIX) (n : Nat)
    (hX : ∀ i j, i < n → j < n → (U.H * U).get i j = if i = j then 1 else 0)
    (i : Nat) (hi : i < n) :
    (phase_vector sqrt U U).get i 0 = 1 := by
  show unit_phase sqrt ((U.H * U).get i i) = 1
  rw [hX i i hi hi, if_pos rfl]
  unfold unit_phase
  rw [complex_norm_one, if_neg one_ne_zero, hs]
  apply complex_ext
  · show (1 : ℚ) / 1 = 1
    norm_num
  · show (0 : ℚ) / 1 = 0
    norm_num

/-- Phase correction against an identical unitary transform returns all-ones phases and
leaves the handle as it is. -/
theorem update_phases_identity (sqrt : ℚ → ℚ) (hs : sqrt 1 = 1) (lvl : Int) (h : Handle)
    (n : Nat) (hn : h.basis_transform.n_cols = n)
    (hX : ∀ i j, i < n → j < n →
      (h.basis_transform.H * h.basis_transform).get i j = if i = j then 1 else 0) :
    (∀ i, i < n → (update_phases sqrt h.basis_transform lvl h).1.get i 0 = 1) ∧
    (update_phases sqrt h.basis_transform lvl h).2 = h := by
  have hph : ∀ i, i < n → (phase_vector sqrt h.basis_transform h.basis_transform).get i 0 = 1 :=
    fun i hi => phase_vector_identity sqrt hs h.basis_transform n hX i hi
  have hrows : (phase_vector sqrt h.basis_transform h.basis_transform).n_rows = n := hn
  refine ⟨hph, ?_⟩
  have hboth : ∀ m : CMATRIX,
      scale_both m (phase_vector sqrt h.basis_transform h.basis_transform) = m := by
    intro m
    apply CMATRIX_ext
    · rfl
    · rfl
    · intro i j
      simp only [scale_both]
      split_ifs with hij
      · rw [hph i (hrows ▸ hij.1), hph j (hrows ▸ hij.2), complex_conj_one, complex_one_mul,
          complex_mul_one]
      · rfl
  have hcols : ∀ m : CMATRIX,
      scale_cols m (phase_vector sqrt h.basis_transform h.basis_transform) = m := by
    intro m
    apply CMATRIX_ext
    · rfl
    · rfl
    · intro i j
      simp only [scale_cols]
      split_ifs with hj
      · rw [hph j (hrows ▸ hj), complex_mul_one]
      · rfl
  unfold update_phases
  simp only [hboth, hcols]

theorem foldl_invariant {α β : Type} (P : α → Prop) (f : α → β → α) (l : List β) (a : α)
    (ha : P a) (hf : ∀ x b, P x → P (f x b)) : P (l.foldl f a) := by
  induction l generalizing a with
  | nil => exact ha
  | cons b t ih => exact ih (f a b) (hf a b ha)

/-- One pass of the reordering loop keeps child `t` and column `t` of `C` when the basis
transform of child `t` equals its unitary snapshot. -/
theorem reorder_traj_trivial {Py : Type} (M : Methods Handle Py) (sqrt : ℚ → ℚ)
    (nst : Nat) (Uprev : List CMATRIX) (child : Handle) (C : CMATRIX) (n t : Nat)
    (hU : Uprev.getD t ⟨0, 0, fun _ _ => 0⟩ = child.basis_transform)
    (hn : child.basis_transform.n_cols = n)
    (hunit : ∀ i j, i < n → j < n →
      (child.basis_transform.H * child.basis_transform).get i j = if i = j then 1 else 0)
    (s : nHamiltonian Handle × CMATRIX) (traj : Nat)
    (hs : s.1.children t = child ∧ s.2.n_rows = C.n_rows ∧ ∀ a, s.2.get a t = C.get a t) :
    (reorder_traj (with_corrections sqrt M) Uprev (List.range nst) s traj).1.children t = child ∧
    (reorder_traj (with_corrections sqrt M) Uprev (List.range nst) s traj).2.n_rows = C.n_rows ∧
    ∀ a, (reorder_traj (with_corrections sqrt M) Uprev (List.range nst) s traj).2.get a t
      = C.get a t := by
  obtain ⟨h1, h2, h3⟩ := hs
  unfold reorder_traj
  simp only [with_corrections]
  rw [push_submatrix_col]
  by_cases ht : traj = t
  · subst ht
    rw [hU, h1, get_reordering_identity (child.basis_transform.H * child.basis_transform) n
      hn hn hunit, update_ordering_identity, permute_rows_identity]
    refine ⟨?_, h2, ?_⟩
    · simp
    · intro a
      simp only [CMATRIX.col, if_true]
      rw [← h3 a]
      split_ifs <;> rfl
  · refine ⟨?_, h2, ?_⟩
    · show Function.update s.1.children traj _ t = child
      rw [Function.update_noteq (Ne.symm ht)]
      exact h1
    · intro a
      simp only
      rw [if_neg (fun h => ht h.2.symm)]
      exact h3 a

/-- One pass of the phase-correction loop keeps child `t` and column `t` of `C` when the
basis transform of child `t` equals its unitary snapshot. -/
theorem phase_traj_trivial {Py : Type} (M : Methods Handle Py) (sqrt : ℚ → ℚ)
    (hsq : sqrt 1 = 1)
    (nst : Nat) (Uprev : List CMATRIX) (child : Handle) (C : CMATRIX) (n t : Nat)
    (hU : Uprev.getD t ⟨0, 0, fun _ _ => 0⟩ = child.basis_transform)
    (hn : child.basis_transform.n_cols = n)
    (hunit : ∀ i j, i < n → j < n →
      (child.basis_transform.H * child.basis_transform).get i j = if i = j then 1 else 0)
    (hC : C.n_rows = n)
    (s : nHamiltonian Handle × CMATRIX) (traj : Nat)
    (hs : s.1.children t = child ∧ s.2.n_rows = C.n_rows ∧ ∀ a, s.2.get a t = C.get a t) :
    (phase_traj (with_corrections sqrt M) Uprev (List.range nst) s traj).1.children t = child ∧
    (phase_traj (with_corrections sqrt M) Uprev (List.range nst) s traj).2.n_rows = C.n_rows ∧
    ∀ a, (phase_traj (with_corrections sqrt M) Uprev (List.range nst) s traj).2.get a t
      = C.get a t := by
  obtain ⟨h1, h2, h3⟩ := hs
  obtain ⟨hph, hh⟩ := update_phases_identity sqrt hsq 1 child n hn hunit
  unfold phase_traj
  simp only [with_corrections]
  rw [push_submatrix_col]
  by_cases ht : traj = t
  · subst ht
    rw [hU, h1, hh]
    refine ⟨?_, h2, ?_⟩
    · simp
    · intro a
      simp only [phase_correct_ampl, CMATRIX.col, if_true, and_true]
      rw [← h3 a]
      by_cases ha : a < s.2.n_rows
      · rw [if_pos ha, hph a (by omega), complex_conj_one, complex_mul_one]
        split_ifs <;> rfl
      · rw [if_neg ha]
        split_ifs <;> rfl
  · refine ⟨?_, h2, ?_⟩
    · show Function.update s.1.children traj _ t = child
      rw [Function.update_noteq (Ne.symm ht)]
      exact h1
    · intro a
      simp only
      rw [if_neg (fun h => ht h.2.symm)]
      exact h3 a

/-- Claim C5. Reordering and phase correction are the identity on the trivial case. The
correction operations are the models `get_reordering`, `update_ordering`, `update_phases`
(with `sqrt 1 = 1`). If, for a trajectory `t`, the basis transform after recomputing the
Hamiltonian equals the snapshot `Uprev[t]` and is unitary (so `Uprev^† * Unew` is the identity
on the `nadi` states), and `C` has `nadi` rows, then the permutation derived for `t` is the
identity, its phase vector is all ones, and after the correction block (for every value of the
two flags) column `t` of `C` and the handle of trajectory `t` are as before it. -/
theorem corrections_trivial_case {Py : Type} (M : Methods Handle Py) (sqrt : ℚ → ℚ)
    (hsq : sqrt 1 = 1) (ntraj nst : Nat) (Uprev : List CMATRIX) (ham : nHamiltonian Handle)
    (C : CMATRIX) (do_reordering do_phase_correction : Int) (t : Nat)
    (hU : Uprev.getD t ⟨0, 0, fun _ _ => 0⟩
      = (with_corrections sqrt M).get_basis_transform (ham.children t))
    (hn : (ham.children t).basis_transform.n_cols = ham.nadi)
    (hunit : ∀ i j, i < ham.nadi → j < ham.nadi →
      ((ham.children t).basis_transform.H * (ham.children t).basis_transform).get i j
        = if i = j then 1 else 0)
    (hC : C.n_rows = ham.nadi) :
    (with_corrections sqrt M).get_reordering
        ((Uprev.getD t ⟨0, 0, fun _ _ => 0⟩).H *
          (with_corrections sqrt M).get_basis_transform (ham.children t))
      = List.range ham.nadi ∧
    (∀ i, i < ham.nadi →
      ((with_corrections sqrt M).update_phases (Uprev.getD t ⟨0, 0, fun _ _ => 0⟩) 1
        (ham.children t)).1.get i 0 = 1) ∧
    (∀ a, (correction_block (with_corrections sqrt M) ntraj Uprev (List.range nst)
        do_reordering do_phase_correction (ham, C)).2.get a t = C.get a t) ∧
    (correction_block (with_corrections sqrt M) ntraj Uprev (List.range nst)
        do_reordering do_phase_correction (ham, C)).1.children t = ham.children t := by
  have hU' : Uprev.getD t ⟨0, 0, fun _ _ => 0⟩ = (ham.children t).basis_transform := hU
  refine ⟨?_, ?_, ?_⟩
  · rw [hU']
    exact get_reordering_identity _ ham.nadi hn hn hunit
  · rw [hU']
    exact (update_phases_identity sqrt hsq 1 (ham.children t) ham.nadi hn hunit).1
  · have h0 : (ham, C).1.children t = ham.children t ∧ (ham, C).2.n_rows = C.n_rows ∧
        ∀ a, (ham, C).2.get a t = C.get a t := ⟨rfl, rfl, fun _ => rfl⟩
    have h1 : ∀ s : nHamiltonian Handle × CMATRIX,
        (s.1.children t = ham.children t ∧ s.2.n_rows = C.n_rows ∧
          ∀ a, s.2.get a t = C.get a t) →
        (((if do_reordering ≠ 0 then
            (List.range ntraj).foldl
              (reorder_traj (with_corrections sqrt M) Uprev (List.range nst)) s
          else s).1.children t = ham.children t) ∧
         ((if do_reordering ≠ 0 then
            (List.range ntraj).foldl
              (reorder_traj (with_corrections sqrt M) Uprev (List.range nst)) s
          else s).2.n_rows = C.n_rows) ∧
         ∀ a, (if do_reordering ≠ 0 then
            (List.range ntraj).foldl
              (reorder_traj (with_corrections sqrt M) Uprev (List.range nst)) s
          else s).2.get a t = C.get a t) := by
      intro s hs
      split_ifs
      · exact foldl_invariant
          (fun s : nHamiltonian Handle × CMATRIX => s.1.children t = ham.children t ∧
            s.2.n_rows = C.n_rows ∧ ∀ a, s.2.get a t = C.get a t) _ _ s hs
          (fun x b hx => reorder_traj_trivial M sqrt nst Uprev (ham.children t) C ham.nadi t
            hU' hn hunit x b hx)
      · exact hs
    have h2 : ∀ s : nHamiltonian Handle × CMATRIX,
        (s.1.children t = ham.children t ∧ s.2.n_rows = C.n_rows ∧
          ∀ a, s.2.get a t = C.get a t) →
        (((if do_phase_correction ≠ 0 then
            (List.range ntraj).foldl
              (phase_traj (with_corrections sqrt M) Uprev (List.range nst)) s
          else s).1.children t = ham.children t) ∧
         ((if do_phase_correction ≠ 0 then
            (List.range ntraj).foldl
              (phase_traj (with_corrections sqrt M) Uprev (List.range nst)) s
          else s).2.n_rows = C.n_rows) ∧
         ∀ a, (if do_phase_correction ≠ 0 then
            (List.range ntraj).foldl
              (phase_traj (with_corrections sqrt M) Uprev (List.range nst)) s
          else s).2.get a t = C.get a t) := by
      intro s hs
      split_ifs
      · exact foldl_invariant
          (fun s : nHamiltonian Handle × CMATRIX => s.1.children t = ham.children t ∧
            s.2.n_rows = C.n_rows ∧ ∀ a, s.2.get a t = C.get a t) _ _ s hs
          (fun x b hx => phase_traj_trivial M sqrt hsq nst Uprev (ham.children t) C ham.nadi t
            hU' hn hunit hC x b hx)
      · exact hs
    have h3 := h2 _ (h1 (ham, C) h0)
    exact ⟨h3.2.2, h3.1⟩

theorem complex_add_re (z w : complex) : (z + w).re = z.re + w.re := rfl

theorem complex_add_im (z w : complex) : (z + w).im = z.im + w.im := rfl

theorem complex_zero_re : (0 : complex).re = 0 := rfl

theorem complex_zero_im : (0 : complex).im = 0 := rfl

theorem complex_one_re : (1 : complex).re = 1 := rfl

theorem complex_one_im : (1 : complex).im = 0 := rfl

theorem unitary_U_unitary (i j : Nat) (hi : i < 2) (hj : j < 2) :
    (unitary_U.H * unitary_U).get i j = if i = j then 1 else 0 := by
  show ((List.range 2).map (fun c => (unitary_U.H).get i c * unitary_U.get c j)).sum = _
  interval_cases i <;> interval_cases j <;> apply complex_ext <;>
    norm_num [List.range_succ, unitary_U, CMATRIX.H, complex.conj, complex_add_re,
      complex_add_im, complex_mul_re, complex_mul_im, complex_zero_re, complex_zero_im,
      complex_one_re, complex_one_im]

/-- Witness for claim C5: two trajectories whose basis transform `unitary_U` equals its
snapshot. -/
theorem corrections_trivial_case_witness :
    (with_corrections (fun x => x) idle_ops).get_reordering
        (([unitary_U, unitary_U].getD 0 ⟨0, 0, fun _ _ => 0⟩).H *
          (with_corrections (fun x => x) idle_ops).get_basis_transform (unitary_ham.children 0))
      = List.range unitary_ham.nadi ∧
    ((with_corrections (fun x => x) idle_ops).update_phases
        ([unitary_U, unitary_U].getD 0 ⟨0, 0, fun _ _ => 0⟩) 1
        (unitary_ham.children 0)).1.get 1 0 = 1 ∧
    (correction_block (with_corrections (fun x => x) idle_ops) 2 [unitary_U, unitary_U]
        (List.range 2) 1 1 (unitary_ham, two_state_C)).2.get 1 0 = two_state_C.get 1 0 ∧
    (correction_block (with_corrections (fun x => x) idle_ops) 2 [unitary_U, unitary_U]
        (List.range 2) 1 1 (unitary_ham, two_state_C)).1.children 0 = unitary_ham.children 0 :=
  ⟨(corrections_trivial_case idle_ops (fun x => x) rfl 2 2 [unitary_U, unitary_U] unitary_ham
      two_state_C 1 1 0 rfl rfl (fun i j hi hj => unitary_U_unitary i j hi hj) rfl).1,
   (corrections_trivial_case idle_ops (fun x => x) rfl 2 2 [unitary_U, unitary_U] unitary_ham
      two_state_C 1 1 0 rfl rfl (fun i j hi hj => unitary_U_unitary i j hi hj) rfl).2.1 1
      (by decide),
   (corrections_trivial_case idle_ops (fun x => x) rfl 2 2 [unitary_U, unitary_U] unitary_ham
      two_state_C 1 1 0 rfl rfl (fun i j hi hj => unitary_U_unitary i j hi hj) rfl).2.2.1 1,
   (corrections_trivial_case idle_ops (fun x => x) rfl 2 2 [unitary_U, unitary_U] unitary_ham
      two_state_C 1 1 0 rfl rfl (fun i j hi hj => unitary_U_unitary i j hi hj) rfl).2.2.2⟩

/-! ## Nuclear update of `Ehrenfest1` -/

theorem Ehrenfest1_q_eq {S Py : Type} (M : Methods S Py) (dt : ℚ) (q p invM : MATRIX)
    (C : CMATRIX) (ham : nHamiltonian S) (py_funct params : Py) (rep : Int) :
    (Ehrenfest1 M dt q p invM C ham py_funct params rep).q
      = update_q q.n_rows q.n_cols dt q (p_half M dt p invM C ham rep) invM := by
  unfold Ehrenfest1 p_half kick C_half update_hvib
  rfl

theorem Ehrenfest1_p_eq {S Py : Type} (M : Methods S Py) (dt : ℚ) (q p invM : MATRIX)
    (C : CMATRIX) (ham : nHamiltonian S) (py_funct params : Py) (rep : Int) :
    (Ehrenfest1 M dt q p invM C ham py_funct params rep).p
      = kick M rep dt (C_half M dt p invM C ham rep)
          (recompute M py_funct params
            (update_q q.n_rows q.n_cols dt q (p_half M dt p invM C ham rep) invM)
            (update_hvib M rep p invM ham))
          (p_half M dt p invM C ham rep) := by
  unfold Ehrenfest1 p_half kick C_half update_hvib recompute
  rfl

theorem kick_eq_forces {S Py : Type} (M : Methods S Py) (rep : Int) (hrep : rep = 0 ∨ rep = 1)
    (dt : ℚ) (C : CMATRIX) (ham : nHamiltonian S) (p : MATRIX) :
    kick M rep dt C ham p = p + (forces M rep C ham).real * (1/2 : ℚ) * dt := by
  unfold kick forces
  rcases hrep with h | h <;> subst h <;> simp

/-- Claim C12. Nuclear update of one `Ehrenfest1` step, for `rep` 0 or 1 and every entry
`(d, t)`: with `C_half` the amplitudes after the first `dt/2` propagation, `F_old` and `F_new`
the real parts of the Ehrenfest force before and after the Hamiltonian is recomputed at the
new geometry, `p_half = p + F_old * dt/2`; for `d`, `t` inside the shape of `q`,
`q_new = q + invM(d,0) * p_half * dt`; and `p_new = p_half + F_new * dt/2`. The inverse masses
are only read: the step returns no new value for `invM`. -/
theorem Ehrenfest1_nuclear_update {S Py : Type} (M : Methods S Py) (dt : ℚ)
    (q p invM : MATRIX) (C : CMATRIX) (ham : nHamiltonian S) (py_funct params : Py)
    (rep : Int) (hrep : rep = 0 ∨ rep = 1) (d t : Nat) :
    (p_half M dt p invM C ham rep).get d t
      = p.get d t + (F_old M dt p invM C ham rep).get d t * dt / 2 ∧
    (d < q.n_rows → t < q.n_cols →
      (Ehrenfest1 M dt q p invM C ham py_funct params rep).q.get d t
        = q.get d t + invM.get d 0 * (p_half M dt p invM C ham rep).get d t * dt) ∧
    (Ehrenfest1 M dt q p invM C ham py_funct params rep).p.get d t
      = (p_half M dt p invM C ham rep).get d t
        + (F_new M dt q p invM C ham py_funct params rep).get d t * dt / 2 := by
  refine ⟨?_, ?_, ?_⟩
  · unfold p_half F_old
    rw [kick_eq_forces M rep hrep, plus_get, times_get, times_get]
    ring
  · intro hd ht
    rw [Ehrenfest1_q_eq, update_q_get]
    simp only
    rw [if_pos ⟨hd, ht⟩]
  · rw [Ehrenfest1_p_eq]
    unfold F_new
    rw [kick_eq_forces M rep hrep, plus_get, times_get, times_get]
    ring

/-- Witness for claim C12: trajectory 1 of the two-trajectory test Hamiltonian, adiabatic
representation. -/
theorem Ehrenfest1_nuclear_update_witness :
    (p_half oscillator (1/10) two_traj_p two_traj_invM two_traj_C two_traj_ham 1).get 0 1
      = two_traj_p.get 0 1
        + (F_old oscillator (1/10) two_traj_p two_traj_invM two_traj_C two_traj_ham 1).get 0 1
          * (1/10) / 2 ∧
    (Ehrenfest1 oscillator (1/10) two_traj_q two_traj_p two_traj_invM two_traj_C two_traj_ham
        () () 1).q.get 0 1
      = two_traj_q.get 0 1 + two_traj_invM.get 0 0
        * (p_half oscillator (1/10) two_traj_p two_traj_invM two_traj_C two_traj_ham 1).get 0 1
        * (1/10) ∧
    (Ehrenfest1 oscillator (1/10) two_traj_q two_traj_p two_traj_invM two_traj_C two_traj_ham
        () () 1).p.get 0 1
      = (p_half oscillator (1/10) two_traj_p two_traj_invM two_traj_C two_traj_ham 1).get 0 1
        + (F_new oscillator (1/10) two_traj_q two_traj_p two_traj_invM two_traj_C two_traj_ham
            () () 1).get 0 1 * (1/10) / 2 :=
  ⟨(Ehrenfest1_nuclear_update oscillator (1/10) two_traj_q two_traj_p two_traj_invM two_traj_C
      two_traj_ham () () 1 (Or.inr rfl) 0 1).1,
   (Ehrenfest1_nuclear_update oscillator (1/10) two_traj_q two_traj_p two_traj_invM two_traj_C
      two_traj_ham () () 1 (Or.inr rfl) 0 1).2.1 (by decide) (by decide),
   (Ehrenfest1_nuclear_update oscillator (1/10) two_traj_q two_traj_p two_traj_invM two_traj_C
      two_traj_ham () () 1 (Or.inr rfl) 0 1).2.2⟩

/-! ## The window-less population overloads -/

/-- Claim C13, counterexample to the claim as stated. One trajectory in state 0 at
`q = 2000000`: the fraction of trajectories in state 0 is 1, but `sh_pop(pops)` returns
`[0, 0]`; `se_pop(pops)` returns `[0, 0]` while the windowed overload with the window
`[0, 3000000]`, which contains the trajectory, returns `[1, 0]`. -/
theorem windowless_pop_excludes_far :
    (count_in_state ens_far 0 : ℚ) / (ens_far.ntraj : ℚ) = 1 ∧
    sh_pop_all ens_far [] = [0, 0] ∧
    se_pop_all ens_far [] = [0, 0] ∧
    se_pop ens_far [] 0 3000000 = [1, 0] := by
  refine ⟨?_, ?_, ?_, ?_⟩
  · norm_num [count_in_state, ens_far, List.range_succ]
  · norm_num [sh_pop_all, sh_pop, fix_size, resize, box_res, ens_far, List.range_succ,
      List.replicate]
  · norm_num [se_pop_all, se_pop, fix_size, resize, box_res, ens_far, List.range_succ,
      List.replicate]
  · norm_num [se_pop, fix_size, resize, box_res, ens_far, List.range_succ, List.replicate]

/-- Claim C13, amended. The window-less overloads use the box `[-1000000, 1000000]`: for every
ensemble with at least one trajectory in which every nuclear coordinate of every trajectory
lies in that box, `sh_pop(pops)` returns for each state `i` the fraction of all trajectories
with `istate = i`, and `se_pop(pops)` returns the same values as the windowed overload with
any window that contains every trajectory. -/
theorem windowless_pop_in_box {H : Type} (e : Ensemble H) (pops : List ℚ)
    (_hn : 1 ≤ e.ntraj)
    (hbox : ∀ traj, traj < e.ntraj → ∀ n, n < e.nnucl →
      -1000000 ≤ (e.mol.getD traj default).q.getD n 0 ∧
        (e.mol.getD traj default).q.getD n 0 ≤ 1000000) :
    (∀ i, i < e.nelec →
      (sh_pop_all e pops).getD i 0 = (count_in_state e i : ℚ) / (e.ntraj : ℚ)) ∧
    (∀ xmin xmax : ℚ,
      (∀ traj, traj < e.ntraj → ∀ n, n < e.nnucl →
        xmin ≤ (e.mol.getD traj default).q.getD n 0 ∧
          (e.mol.getD traj default).q.getD n 0 ≤ xmax) →
      se_pop_all e pops = se_pop e pops xmin xmax) := by
  constructor
  · intro i hi
    unfold sh_pop_all
    rw [sh_pop_closed, List.getD_eq_getElem _ _ (by simpa using hi)]
    simp only [List.getElem_map, List.getElem_range]
    have hsum : (∑ traj in Finset.range e.ntraj,
        if ((e.el.getD traj default).istate = (i : Int) ∧
            ∀ n, n < e.nnucl → -1000000 ≤ (e.mol.getD traj default).q.getD n 0 ∧
              (e.mol.getD traj default).q.getD n 0 ≤ 1000000) then (1 : ℚ) else 0)
        = ∑ traj in Finset.range e.ntraj,
            if (e.el.getD traj default).istate = (i : Int) then (1 : ℚ) else 0 := by
      apply Finset.sum_congr rfl
      intro traj ht
      have hb := hbox traj (Finset.mem_range.mp ht)
      by_cases h1 : (e.el.getD traj default).istate = (i : Int)
      · rw [if_pos ⟨h1, hb⟩, if_pos h1]
      · rw [if_neg (fun h => h1 h.1), if_neg h1]
    rw [hsum, sum_ones_eq_filter_length]
    rfl
  · intro xmin xmax hwin
    unfold se_pop_all
    rw [se_pop_closed, se_pop_closed]
    apply List.map_congr_left
    intro i _
    congr 1
    apply Finset.sum_congr rfl
    intro traj ht
    have hb := hbox traj (Finset.mem_range.mp ht)
    have hw := hwin traj (Finset.mem_range.mp ht)
    by_cases h1 : (e.el.getD traj default).istate = (i : Int)
    · rw [if_pos ⟨h1, hb⟩, if_pos ⟨h1, hw⟩]
    · rw [if_neg (fun h => h1 h.1), if_neg (fun h => h1 h.1)]

/-- Witness for claim C13 (amended): one trajectory at `q = 0`, state 0, and the window
`[-1, 1]`. -/
theorem windowless_pop_in_box_witness :
    (sh_pop_all ens_one [7, 7, 7]).getD 0 0
      = (count_in_state ens_one 0 : ℚ) / (ens_one.ntraj : ℚ) ∧
    se_pop_all ens_one [7, 7, 7] = se_pop ens_one [7, 7, 7] (-1) 1 :=
  ⟨(windowless_pop_in_box ens_one [7, 7, 7] (by decide)
      (by
        intro traj ht n hn
        have h0 : traj = 0 := by
          have : traj < 1 := ht
          omega
        have h1 : n = 0 := by
          have : n < 1 := hn
          omega
        subst h0 h1
        norm_num [ens_one])).1 0 (by decide),
   (windowless_pop_in_box ens_one [7, 7, 7] (by decide)
      (by
        intro traj ht n hn
        have h0 : traj = 0 := by
          have : traj < 1 := ht
          omega
        have h1 : n = 0 := by
          have : n < 1 := hn
          omega
        subst h0 h1
        norm_num [ens_one])).2 (-1) 1
      (by
        intro traj ht n hn
        have h0 : traj = 0 := by
          have : traj < 1 := ht
          omega
        have h1 : n = 0 := by
          have : n < 1 := hn
          omega
        subst h0 h1
        norm_num [ens_one])⟩

/-! ## The velocity buffer of `sh_pop1` -/

/-- Claim C16. The velocity buffer of `sh_pop1` at one trajectory with two nuclear degrees of
freedom: the buffer `v_` is allocated with `ntraj = 1` entries, so the write `v_[1]`
(`1 < mol[0].nnucl = 2`) falls outside it, and the vector handed to `set_v` is `[3]`, one
entry instead of the two velocities `[3, 2]` that `ham_set_v` hands over. -/
theorem sh_pop1_velocity_buffer_short :
    (List.replicate ens_two_dof.ntraj (0 : ℚ)).length = 1 ∧
    (ens_two_dof.mol.getD 0 default).nnucl = 2 ∧
    ¬ (1 < (List.replicate ens_two_dof.ntraj (0 : ℚ)).length) ∧
    (sh_pop1 recording ens_two_dof [] (-1) 1).v_ = [3] ∧
    (sh_pop1 recording ens_two_dof [] (-1) 1).ham = [[3]] ∧
    ham_set_v recording ens_two_dof = [[3, 2]] := by
  refine ⟨rfl, rfl, by decide, ?_, ?_, ?_⟩
  · norm_num [sh_pop1, sh_pop1_traj, sh_pop1_read, sh_pop1_v, ens_two_dof, recording,
      List.range_succ, List.replicate]
  · norm_num [sh_pop1, sh_pop1_traj, sh_pop1_read, sh_pop1_v, ens_two_dof, recording,
      List.range_succ, List.replicate]
  · norm_num [ham_set_v, ens_two_dof, recording, List.range_succ, List.replicate]

/-! ## The diabatic weights of `sh_pop1` -/

/-- What one pass of the trajectory loop of `sh_pop1` does to a two-entry `pops`. -/
theorem sh_pop1_traj_pops {H : Type} [Inhabited H] (ops : Hamiltonian H) (e : Ensemble H)
    (xmin xmax : ℚ) (s : Pop1State H) (j : Nat) (hne : e.nelec = 2) (a b : ℚ)
    (hp : s.pops = [a, b])
    (hst : (e.el.getD j default).istate = 0 ∨ (e.el.getD j default).istate = 1)
    (r : Pop1Read H)
    (hr : r = sh_pop1_read ops (e.mol.getD j default)
      (sh_pop1_v (e.mol.getD j default) s.v_) (s.ham.getD j default)) :
    (sh_pop1_traj ops e xmin xmax s j).pops =
      if (e.mol.getD j default).q.getD 0 0 > xmin ∧ (e.mol.getD j default).q.getD 0 0 < xmax then
        [a + r.V * r.V / ((r.H0 - E_occupied r (e.el.getD j default))
              * (r.H0 - E_occupied r (e.el.getD j default)) + r.V * r.V),
         b + (r.H0 - E_occupied r (e.el.getD j default))
              * (r.H0 - E_occupied r (e.el.getD j default))
            / ((r.H0 - E_occupied r (e.el.getD j default))
              * (r.H0 - E_occupied r (e.el.getD j default)) + r.V * r.V)]
      else [a, b] := by
  unfold sh_pop1_traj
  simp only
  rw [← hr, hne, hp]
  simp only [List.range_succ, List.range_zero, List.nil_append, List.cons_append,
    List.foldl_cons, List.foldl_nil]
  unfold sh_pop1_add E_occupied
  by_cases hin : (e.mol.getD j default).q.getD 0 0 > xmin ∧ (e.mol.getD j default).q.getD 0 0 < xmax
  · simp only [if_pos hin]
    rcases hst with h0 | h1
    · simp only [if_pos h0]
      simp
    · have hne0 : ¬ (e.el.getD j default).istate = 0 := by rw [h1]; decide
      simp only [if_neg hne0, if_pos h1]
      simp
  · simp only [if_neg hin]

theorem sh_pop1_before_succ {H : Type} [Inhabited H] (ops : Hamiltonian H) (e : Ensemble H)
    (pops : List ℚ) (xmin xmax : ℚ) (k : Nat) :
    sh_pop1_before ops e pops xmin xmax (k + 1)
      = sh_pop1_traj ops e xmin xmax (sh_pop1_before ops e pops xmin xmax k) k := by
  unfold sh_pop1_before
  rw [List.range_succ, List.foldl_append]
  rfl

theorem sh_pop1_before_zero_pops {H : Type} [Inhabited H] (ops : Hamiltonian H)
    (e : Ensemble H) (pops : List ℚ) (xmin xmax : ℚ) (hne : e.nelec = 2) :
    (sh_pop1_before ops e pops xmin xmax 0).pops = [0, 0] := by
  unfold sh_pop1_before
  simp only [List.range_zero, List.foldl_nil]
  have hlen := length_fix_size pops e.nelec
  rw [hne] at hlen ⊢
  match hf : fix_size pops 2, hlen with
  | [a, b], _ => simp [List.range_succ]

theorem sh_pop1_eq_before {H : Type} [Inhabited H] (ops : Hamiltonian H) (e : Ensemble H)
    (pops : List ℚ) (xmin xmax : ℚ) :
    (sh_pop1 ops e pops xmin xmax).pops
      = (List.range e.nelec).foldl
          (fun pops i => pops.set i (pops.getD i 0 / (e.ntraj : ℚ)))
          (sh_pop1_before ops e pops xmin xmax e.ntraj).pops := rfl

/-- The two diabatic weights are non-negative and add up to one. -/
theorem weights_partition (h0 e v : ℚ) (hD : (h0 - e) * (h0 - e) + v * v ≠ 0) :
    0 ≤ v * v / ((h0 - e) * (h0 - e) + v * v) ∧
    0 ≤ (h0 - e) * (h0 - e) / ((h0 - e) * (h0 - e) + v * v) ∧
    v * v / ((h0 - e) * (h0 - e) + v * v)
      + (h0 - e) * (h0 - e) / ((h0 - e) * (h0 - e) + v * v) = 1 := by
  have h1 : 0 ≤ (h0 - e) * (h0 - e) := mul_self_nonneg _
  have h2 : 0 ≤ v * v := mul_self_nonneg _
  have h3 : 0 ≤ (h0 - e) * (h0 - e) + v * v := add_nonneg h1 h2
  refine ⟨div_nonneg h2 h3, div_nonneg h1 h3, ?_⟩
  rw [← add_div, add_comm, div_self hD]

/-- After the passes `j < k` of the trajectory loop, `pops` holds two non-negative sums that
add up to the number of trajectories `j < k` inside the window. -/
theorem sh_pop1_before_pops {H : Type} [Inhabited H] (ops : Hamiltonian H) (e : Ensemble H)
    (pops : List ℚ) (xmin xmax : ℚ) (hne : e.nelec = 2)
    (hst : ∀ j, j < e.ntraj →
      (e.el.getD j default).istate = 0 ∨ (e.el.getD j default).istate = 1)
    (hD : ∀ j, j < e.ntraj →
      ((sh_pop1_reading ops e pops xmin xmax j).H0
          - E_occupied (sh_pop1_reading ops e pops xmin xmax j) (e.el.getD j default))
        * ((sh_pop1_reading ops e pops xmin xmax j).H0
          - E_occupied (sh_pop1_reading ops e pops xmin xmax j) (e.el.getD j default))
        + (sh_pop1_reading ops e pops xmin xmax j).V
          * (sh_pop1_reading ops e pops xmin xmax j).V ≠ 0)
    (k : Nat) (hk : k ≤ e.ntraj) :
    ∃ A B : ℚ, (sh_pop1_before ops e pops xmin xmax k).pops = [A, B] ∧ 0 ≤ A ∧ 0 ≤ B ∧
      A + B = (((List.range k).filter (fun j =>
        decide ((e.mol.getD j default).q.getD 0 0 > xmin ∧
          (e.mol.getD j default).q.getD 0 0 < xmax))).length : ℚ) := by
  induction k with
  | zero =>
    exact ⟨0, 0, sh_pop1_before_zero_pops ops e pops xmin xmax hne, le_rfl, le_rfl, by simp⟩
  | succ k ih =>
    obtain ⟨A, B, hp, hA, hB, hsum⟩ := ih (by omega)
    have hk' : k < e.ntraj := by omega
    have hw := weights_partition _ _ _ (hD k hk')
    rw [sh_pop1_before_succ,
      sh_pop1_traj_pops ops e xmin xmax _ k hne A B hp (hst k hk')
        (sh_pop1_reading ops e pops xmin xmax k) rfl,
      List.range_succ, List.filter_append, List.length_append]
    by_cases hin : (e.mol.getD k default).q.getD 0 0 > xmin ∧
        (e.mol.getD k default).q.getD 0 0 < xmax
    · rw [if_pos hin]
      refine ⟨_, _, rfl, add_nonneg hA hw.1, add_nonneg hB hw.2.1, ?_⟩
      simp only [List.filter_cons, List.filter_nil, hin, and_self, decide_True, if_true,
        List.length_singleton, Nat.cast_add, Nat.cast_one]
      linarith [hw.2.2]
    · rw [if_neg hin]
      refine ⟨A, B, rfl, hA, hB, ?_⟩
      simp only [List.filter_cons, List.filter_nil, hin, decide_False, List.length_nil,
        Nat.cast_add, Nat.cast_zero, add_zero]
      simpa using hsum

/-- Claim C15. The weights of `sh_pop1` are a partition of unity: in a two-state ensemble
with at least one trajectory, every trajectory in state 0 or 1, and `(H0-E)^2 + V^2` non-zero
for the adiabatic energy `E` of its occupied state, each trajectory inside the window adds
`V^2/((H0-E)^2+V^2)` to `pops[0]` and `(H0-E)^2/((H0-E)^2+V^2)` to `pops[1]`; the result has
two entries, each in `[0, 1]`, and they add up to the number of trajectories inside the window
divided by `ntraj`. -/
theorem sh_pop1_partition_of_unity {H : Type} [Inhabited H] (ops : Hamiltonian H)
    (e : Ensemble H) (pops : List ℚ) (xmin xmax : ℚ) (hne : e.nelec = 2) (hn : 1 ≤ e.ntraj)
    (hst : ∀ j, j < e.ntraj →
      (e.el.getD j default).istate = 0 ∨ (e.el.getD j default).istate = 1)
    (hD : ∀ j, j < e.ntraj →
      ((sh_pop1_reading ops e pops xmin xmax j).H0
          - E_occupied (sh_pop1_reading ops e pops xmin xmax j) (e.el.getD j default))
        * ((sh_pop1_reading ops e pops xmin xmax j).H0
          - E_occupied (sh_pop1_reading ops e pops xmin xmax j) (e.el.getD j default))
        + (sh_pop1_reading ops e pops xmin xmax j).V
          * (sh_pop1_reading ops e pops xmin xmax j).V ≠ 0) :
    (∀ j, j < e.ntraj →
      ((e.mol.getD j default).q.getD 0 0 > xmin ∧ (e.mol.getD j default).q.getD 0 0 < xmax) →
      (sh_pop1_before ops e pops xmin xmax (j + 1)).pops =
        [(sh_pop1_before ops e pops xmin xmax j).pops.getD 0 0
            + weight0 (sh_pop1_reading ops e pops xmin xmax j) (e.el.getD j default),
         (sh_pop1_before ops e pops xmin xmax j).pops.getD 1 0
            + weight1 (sh_pop1_reading ops e pops xmin xmax j) (e.el.getD j default)]) ∧
    (sh_pop1 ops e pops xmin xmax).pops.length = 2 ∧
    (0 ≤ (sh_pop1 ops e pops xmin xmax).pops.getD 0 0 ∧
      (sh_pop1 ops e pops xmin xmax).pops.getD 0 0 ≤ 1) ∧
    (0 ≤ (sh_pop1 ops e pops xmin xmax).pops.getD 1 0 ∧
      (sh_pop1 ops e pops xmin xmax).pops.getD 1 0 ≤ 1) ∧
    (sh_pop1 ops e pops xmin xmax).pops.getD 0 0 + (sh_pop1 ops e pops xmin xmax).pops.getD 1 0
      = (count_in_window e xmin xmax : ℚ) / (e.ntraj : ℚ) := by
  constructor
  · intro j hj hin
    obtain ⟨A, B, hp, _, _, _⟩ :=
      sh_pop1_before_pops ops e pops xmin xmax hne hst hD j (by omega)
    rw [sh_pop1_before_succ,
      sh_pop1_traj_pops ops e xmin xmax _ j hne A B hp (hst j hj)
        (sh_pop1_reading ops e pops xmin xmax j) rfl, if_pos hin, hp]
    rfl
  · obtain ⟨A, B, hp, hA, hB, hsum⟩ :=
      sh_pop1_before_pops ops e pops xmin xmax hne hst hD e.ntraj le_rfl
    have hpos : (0 : ℚ) < (e.ntraj : ℚ) := by exact_mod_cast hn
    have hcount : (count_in_window e xmin xmax : ℚ) ≤ (e.ntraj : ℚ) := by
      have h := List.length_filter_le (fun j =>
        decide ((e.mol.getD j default).q.getD 0 0 > xmin ∧
          (e.mol.getD j default).q.getD 0 0 < xmax)) (List.range e.ntraj)
      rw [List.length_range] at h
      exact_mod_cast h
    have hfin : (sh_pop1 ops e pops xmin xmax).pops
        = [A / (e.ntraj : ℚ), B / (e.ntraj : ℚ)] := by
      rw [sh_pop1_eq_before, hne, hp]
      simp [List.range_succ]
    have hsum' : A + B = (count_in_window e xmin xmax : ℚ) := hsum
    rw [hfin]
    refine ⟨rfl, ⟨?_, ?_⟩, ⟨?_, ?_⟩, ?_⟩
    · exact div_nonneg hA hpos.le
    · show A / (e.ntraj : ℚ) ≤ 1
      rw [div_le_one hpos]
      linarith
    · exact div_nonneg hB hpos.le
    · show B / (e.ntraj : ℚ) ≤ 1
      rw [div_le_one hpos]
      linarith
    · show A / (e.ntraj : ℚ) + B / (e.ntraj : ℚ) = _
      rw [← add_div, hsum']

theorem ens_one_reading_nonzero (j : Nat) (hj : j < ens_one.ntraj) :
    ((sh_pop1_reading two_level ens_one [] (-1) 1 j).H0
        - E_occupied (sh_pop1_reading two_level ens_one [] (-1) 1 j) (ens_one.el.getD j default))
      * ((sh_pop1_reading two_level ens_one [] (-1) 1 j).H0
        - E_occupied (sh_pop1_reading two_level ens_one [] (-1) 1 j) (ens_one.el.getD j default))
      + (sh_pop1_reading two_level ens_one [] (-1) 1 j).V
        * (sh_pop1_reading two_level ens_one [] (-1) 1 j).V ≠ 0 := by
  have h0 : j = 0 := by
    have : j < 1 := hj
    omega
  subst h0
  norm_num [sh_pop1_reading, sh_pop1_before, sh_pop1_read, E_occupied, two_level, ens_one,
    complex.real]

/-- Witness for claim C15: the two-level Hamiltonian, one trajectory in state 0 at `q = 0`,
window `(-1, 1)`. -/
theorem sh_pop1_partition_of_unity_witness :
    (sh_pop1_before two_level ens_one [] (-1) 1 (0 + 1)).pops =
        [(sh_pop1_before two_level ens_one [] (-1) 1 0).pops.getD 0 0
            + weight0 (sh_pop1_reading two_level ens_one [] (-1) 1 0) (ens_one.el.getD 0 default),
         (sh_pop1_before two_level ens_one [] (-1) 1 0).pops.getD 1 0
            + weight1 (sh_pop1_reading two_level ens_one [] (-1) 1 0)
                (ens_one.el.getD 0 default)] ∧
    (sh_pop1 two_level ens_one [] (-1) 1).pops.length = 2 ∧
    (0 ≤ (sh_pop1 two_level ens_one [] (-1) 1).pops.getD 0 0 ∧
      (sh_pop1 two_level ens_one [] (-1) 1).pops.getD 0 0 ≤ 1) ∧
    (0 ≤ (sh_pop1 two_level ens_one [] (-1) 1).pops.getD 1 0 ∧
      (sh_pop1 two_level ens_one [] (-1) 1).pops.getD 1 0 ≤ 1) ∧
    (sh_pop1 two_level ens_one [] (-1) 1).pops.getD 0 0
        + (sh_pop1 two_level ens_one [] (-1) 1).pops.getD 1 0
      = (count_in_window ens_one (-1) 1 : ℚ) / (ens_one.ntraj : ℚ) :=
  ⟨(sh_pop1_partition_of_unity two_level ens_one [] (-1) 1 rfl (by decide)
      (fun j hj => by
        have h0 : j = 0 := by
          have : j < 1 := hj
          omega
        subst h0
        exact Or.inl rfl)
      ens_one_reading_nonzero).1 0 (by decide) (by norm_num [ens_one]),
   (sh_pop1_partition_of_unity two_level ens_one [] (-1) 1 rfl (by decide)
      (fun j hj => by
        have h0 : j = 0 := by
          have : j < 1 := hj
          omega
        subst h0
        exact Or.inl rfl)
      ens_one_reading_nonzero).2⟩

/-! ## The Hartree-Fock Fock matrix -/

theorem HF_MATRIX_ext (A B : libhamiltonian_qm.MATRIX) (hr : A.num_of_rows = B.num_of_rows)
    (hc : A.num_of_cols = B.num_of_cols) (hM : ∀ i, A.M i = B.M i) : A = B := by
  cases A with
  | mk r c m =>
    cases B with
    | mk r2 c2 m2 =>
      simp only at hr hc hM
      subst hr hc
      have : m = m2 := funext hM
      subst this
      rfl

theorem foldl_pair {α β γ : Type} (f : α → γ → α) (g : β → γ → β) (l : List γ) (s : α × β) :
    l.foldl (fun s x => (f s.1 x, g s.2 x)) s = (l.foldl f s.1, l.foldl g s.2) := by
  induction l generalizing s with
  | nil => rfl
  | cons x t ih => simp only [List.foldl_cons, ih]

theorem Fock_step_eq (Norb : Nat) (prms : libhamiltonian_qm.Control_Parameters)
    (modprms : libhamiltonian_qm.Model_Parameters) (P P_alp P_bet : libhamiltonian_qm.MATRIX)
    (a b c d : Nat) (F : libhamiltonian_qm.MATRIX × libhamiltonian_qm.MATRIX) :
    libhamiltonian_qm.Fock_step Norb prms modprms P P_alp P_bet a b c d F
      = (F.1.add_at (a * Norb + b)
            (libhamiltonian_qm.Fock_term_alp Norb prms modprms P P_alp a b c d),
         F.2.add_at (a * Norb + b)
            (libhamiltonian_qm.Fock_term_bet Norb prms modprms P P_bet a b c d)) := by
  unfold libhamiltonian_qm.Fock_step libhamiltonian_qm.Fock_term_alp
    libhamiltonian_qm.Fock_term_bet
  simp only
  split_ifs <;> rfl

/-- The loops of `Hamiltonian_Fock_hf` update `Fao_alp` and `Fao_bet` independently. -/
theorem Fock_loops_eq (Norb : Nat) (prms : libhamiltonian_qm.Control_Parameters)
    (modprms : libhamiltonian_qm.Model_Parameters) (P P_alp P_bet : libhamiltonian_qm.MATRIX)
    (F : libhamiltonian_qm.MATRIX × libhamiltonian_qm.MATRIX) :
    libhamiltonian_qm.Fock_loops Norb prms modprms P P_alp P_bet F
      = (libhamiltonian_qm.cell_loops Norb
            (libhamiltonian_qm.Fock_term_alp Norb prms modprms P P_alp) F.1,
         libhamiltonian_qm.cell_loops Norb
            (libhamiltonian_qm.Fock_term_bet Norb prms modprms P P_bet) F.2) := by
  unfold libhamiltonian_qm.Fock_loops libhamiltonian_qm.cell_loops
  simp only [Fock_step_eq]
  have hd : ∀ a b c (F : libhamiltonian_qm.MATRIX × libhamiltonian_qm.MATRIX),
      (List.range Norb).foldl
        (fun F d =>
          (F.1.add_at (a * Norb + b)
              (libhamiltonian_qm.Fock_term_alp Norb prms modprms P P_alp a b c d),
           F.2.add_at (a * Norb + b)
              (libhamiltonian_qm.Fock_term_bet Norb prms modprms P P_bet a b c d))) F
      = ((List.range Norb).foldl (fun F d => F.add_at (a * Norb + b)
            (libhamiltonian_qm.Fock_term_alp Norb prms modprms P P_alp a b c d)) F.1,
         (List.range Norb).foldl (fun F d => F.add_at (a * Norb + b)
            (libhamiltonian_qm.Fock_term_bet Norb prms modprms P P_bet a b c d)) F.2) :=
    fun a b c F => foldl_pair
      (fun F d => F.add_at (a * Norb + b)
        (libhamiltonian_qm.Fock_term_alp Norb prms modprms P P_alp a b c d))
      (fun F d => F.add_at (a * Norb + b)
        (libhamiltonian_qm.Fock_term_bet Norb prms modprms P P_bet a b c d)) _ F
  simp only [hd]
  have hc : ∀ a b (F : libhamiltonian_qm.MATRIX × libhamiltonian_qm.MATRIX),
      (List.range Norb).foldl
        (fun F c =>
          ((List.range Norb).foldl (fun F d => F.add_at (a * Norb + b)
            (libhamiltonian_qm.Fock_term_alp Norb prms modprms P P_alp a b c d)) F.1,
           (List.range Norb).foldl (fun F d => F.add_at (a * Norb + b)
            (libhamiltonian_qm.Fock_term_bet Norb prms modprms P P_bet a b c d)) F.2)) F
      = ((List.range Norb).foldl (fun F c => (List.range Norb).foldl
            (fun F d => F.add_at (a * Norb + b)
              (libhamiltonian_qm.Fock_term_alp Norb prms modprms P P_alp a b c d)) F) F.1,
         (List.range Norb).foldl (fun F c => (List.range Norb).foldl
            (fun F d => F.add_at (a * Norb + b)
              (libhamiltonian_qm.Fock_term_bet Norb prms modprms P P_bet a b c d)) F) F.2) :=
    fun a b F => foldl_pair
      (fun F c => (List.range Norb).foldl (fun F d => F.add_at (a * Norb + b)
        (libhamiltonian_qm.Fock_term_alp Norb prms modprms P P_alp a b c d)) F)
      (fun F c => (List.range Norb).foldl (fun F d => F.add_at (a * Norb + b)
        (libhamiltonian_qm.Fock_term_bet Norb prms modprms P P_bet a b c d)) F) _ F
  simp only [hc]
  have hb : ∀ a (F : libhamiltonian_qm.MATRIX × libhamiltonian_qm.MATRIX),
      (List.range Norb).foldl
        (fun F b =>
          ((List.range Norb).foldl (fun F c => (List.range Norb).foldl
            (fun F d => F.add_at (a * Norb + b)
              (libhamiltonian_qm.Fock_term_alp Norb prms modprms P P_alp a b c d)) F) F.1,
           (List.range Norb).foldl (fun F c => (List.range Norb).foldl
            (fun F d => F.add_at (a * Norb + b)
              (libhamiltonian_qm.Fock_term_bet Norb prms modprms P P_bet a b c d)) F) F.2)) F
      = ((List.range Norb).foldl (fun F b => (List.range Norb).foldl
            (fun F c => (List.range Norb).foldl
              (fun F d => F.add_at (a * Norb + b)
                (libhamiltonian_qm.Fock_term_alp Norb prms modprms P P_alp a b c d)) F) F) F.1,
         (List.range Norb).foldl (fun F b => (List.range Norb).foldl
            (fun F c => (List.range Norb).foldl
              (fun F d => F.add_at (a * Norb + b)
                (libhamiltonian_qm.Fock_term_bet Norb prms modprms P P_bet a b c d)) F) F) F.2) :=
    fun a F => foldl_pair
      (fun F b => (List.range Norb).foldl (fun F c => (List.range Norb).foldl
        (fun F d => F.add_at (a * Norb + b)
          (libhamiltonian_qm.Fock_term_alp Norb prms modprms P P_alp a b c d)) F) F)
      (fun F b => (List.range Norb).foldl (fun F c => (List.range Norb).foldl
        (fun F d => F.add_at (a * Norb + b)
          (libhamiltonian_qm.Fock_term_bet Norb prms modprms P P_bet a b c d)) F) F) _ F
  simp only [hb]
  exact foldl_pair
    (fun F a => (List.range Norb).foldl (fun F b => (List.range Norb).foldl
      (fun F c => (List.range Norb).foldl (fun F d => F.add_at (a * Norb + b)
        (libhamiltonian_qm.Fock_term_alp Norb prms modprms P P_alp a b c d)) F) F) F)
    (fun F a => (List.range Norb).foldl (fun F b => (List.range Norb).foldl
      (fun F c => (List.range Norb).foldl (fun F d => F.add_at (a * Norb + b)
        (libhamiltonian_qm.Fock_term_bet Norb prms modprms P P_bet a b c d)) F) F) F) _ F

theorem fold_add_at (idx : Nat) (t : Nat → ℚ) (k : Nat) (A : libhamiltonian_qm.MATRIX) :
    (List.range k).foldl (fun F d => F.add_at idx (t d)) A
      = A.add_at idx (∑ d in Finset.range k, t d) := by
  induction k with
  | zero =>
    apply HF_MATRIX_ext
    · rfl
    · rfl
    · intro i
      simp [libhamiltonian_qm.MATRIX.add_at]
  | succ k ih =>
    rw [List.range_succ, List.foldl_append, ih, Finset.sum_range_succ]
    apply HF_MATRIX_ext
    · rfl
    · rfl
    · intro i
      simp only [List.foldl_cons, List.foldl_nil, libhamiltonian_qm.MATRIX.add_at]
      split_ifs
      · ring
      · rfl

/-- One pass of the loop over `b`: the cells `base + b`, `b < k`, each receive `g b`. -/
theorem fold_add_at_row (base : Nat) (g : Nat → ℚ) (k : Nat) (A : libhamiltonian_qm.MATRIX) :
    (List.range k).foldl (fun F b => F.add_at (base + b) (g b)) A
      = { A with M := fun i =>
            if base ≤ i ∧ i < base + k then A.M i + g (i - base) else A.M i } := by
  induction k with
  | zero =>
    apply HF_MATRIX_ext
    · rfl
    · rfl
    · intro i
      simp only [List.range_zero, List.foldl_nil, add_zero]
      rw [if_neg]
      omega
  | succ k ih =>
    rw [List.range_succ, List.foldl_append, ih]
    apply HF_MATRIX_ext
    · rfl
    · rfl
    · intro i
      simp only [List.foldl_cons, List.foldl_nil, libhamiltonian_qm.MATRIX.add_at]
      by_cases h1 : i = base + k
      · subst h1
        rw [if_pos rfl, if_neg (by omega), if_pos (by omega)]
        congr 2
        omega
      · rw [if_neg h1]
        by_cases h2 : base ≤ i ∧ i < base + k
        · rw [if_pos h2, if_pos (by omega)]
        · rw [if_neg h2, if_neg (by omega)]

/-- The four nested loops as one pass over the rows `a`: row `a` of the `n`-column layout
receives the sums over `c` and `d`. -/
theorem cell_loops_rows (n : Nat) (t : Nat → Nat → Nat → Nat → ℚ)
    (F : libhamiltonian_qm.MATRIX) :
    libhamiltonian_qm.cell_loops n t F
      = (List.range n).foldl
          (fun (F : libhamiltonian_qm.MATRIX) a =>
            { F with M := fun i =>
                if a * n ≤ i ∧ i < a * n + n then
                  F.M i + ∑ c in Finset.range n, ∑ d in Finset.range n, t a (i - a * n) c d
                else F.M i }) F := by
  unfold libhamiltonian_qm.cell_loops
  simp only [fold_add_at, fold_add_at_row]

theorem cell_index_lt (n a m b : Nat) (hb : b < n) (ha : a < m) : a * n + b < m * n := by
  have h1 : (a + 1) * n ≤ m * n := Nat.mul_le_mul_right n ha
  have h2 : (a + 1) * n = a * n + n := by ring
  omega

/-- Value of the cell `(a, b)` after the loops: the initial value plus the sum over `c, d` of
the terms, and the shape is kept. -/
theorem cell_loops_cell (n : Nat) (t : Nat → Nat → Nat → Nat → ℚ)
    (F : libhamiltonian_qm.MATRIX) (a b : Nat) (ha : a < n) (hb : b < n) :
    (libhamiltonian_qm.cell_loops n t F).M (a * n + b)
      = F.M (a * n + b) + ∑ c in Finset.range n, ∑ d in Finset.range n, t a b c d := by
  rw [cell_loops_rows]
  have key : ∀ m, ((List.range m).foldl
      (fun (F : libhamiltonian_qm.MATRIX) a =>
        { F with M := fun i =>
            if a * n ≤ i ∧ i < a * n + n then
              F.M i + ∑ c in Finset.range n, ∑ d in Finset.range n, t a (i - a * n) c d
            else F.M i }) F).M (a * n + b)
      = F.M (a * n + b)
        + if a < m then ∑ c in Finset.range n, ∑ d in Finset.range n, t a b c d else 0 := by
    intro m
    induction m with
    | zero => simp
    | succ m ih =>
      rw [List.range_succ, List.foldl_append]
      simp only [List.foldl_cons, List.foldl_nil]
      rw [ih]
      by_cases h1 : a = m
      · subst h1
        rw [if_pos (by omega), if_neg (by omega), if_pos (by omega)]
        have : a * n + b - a * n = b := by omega
        rw [this]
        ring
      · by_cases h2 : a < m
        · have := cell_index_lt n a m b hb h2
          rw [if_neg (by omega), if_pos h2, if_pos (by omega)]
        · have h3 : m < a := by omega
          have h4 : (m + 1) * n ≤ a * n := Nat.mul_le_mul_right n h3
          have h5 : (m + 1) * n = m * n + n := by ring
          rw [if_neg (by omega), if_neg h2, if_neg (by omega)]
  rw [key n, if_pos ha]

theorem Fock_hf_result {AO : Type} (X : libhamiltonian_qm.Externals)
    (el : libhamiltonian_qm.Electronic_Structure) (syst : libhamiltonian_qm.System)
    (basis_ao : List AO) (prms : libhamiltonian_qm.Control_Parameters)
    (modprms : libhamiltonian_qm.Model_Parameters) (atom_to_ao_map : List (List Nat))
    (ao_to_atom_map : List Nat) (hN : basis_ao.length = el.Hao.num_of_cols) :
    ∃ r, libhamiltonian_qm.Hamiltonian_Fock_hf X el syst basis_ao prms modprms atom_to_ao_map
        ao_to_atom_map = some r ∧
      r.1.Hao = el.Hao ∧ r.1.P = el.P_alp + el.P_bet ∧ r.1.P_alp = el.P_alp ∧
      r.1.P_bet = el.P_bet ∧
      r.1.Fao_alp = libhamiltonian_qm.cell_loops basis_ao.length
        (libhamiltonian_qm.Fock_term_alp basis_ao.length prms modprms (el.P_alp + el.P_bet)
          el.P_alp) el.Hao ∧
      r.1.Fao_bet = libhamiltonian_qm.cell_loops basis_ao.length
        (libhamiltonian_qm.Fock_term_bet basis_ao.length prms modprms (el.P_alp + el.P_bet)
          el.P_bet) el.Hao := by
  unfold libhamiltonian_qm.Hamiltonian_Fock_hf
  simp only [hN, ne_eq, not_true_eq_false, if_false]
  refine ⟨_, rfl, rfl, rfl, rfl, rfl, ?_, ?_⟩
  · simp only [Fock_loops_eq]
  · simp only [Fock_loops_eq]

/-- Claim C14. Fock matrix construction: for every input whose basis size `Norb` equals the
column count of `Hao` and with `use_rosh` off, `Hamiltonian_Fock_hf` returns; the total
density is `P = P_alp + P_bet`; for all `a, b < Norb` the entries `(a, b)` of `Fao_alp` and
`Fao_bet` (at `M[a*Norb+b]`) are `Hao[a,b]` plus the sum over `c, d < Norb` of
`P[c,d] * J(a,b,c,d) - P_alp[c,d] * K(a,d,c,b)`, respectively with `P_bet`, with `J`, `K` the
values returned by `get_JK_values(a,b,c,d)`; and `Hao`, `P_alp`, `P_bet` are unchanged. -/
theorem Fock_hf_construction {AO : Type} (X : libhamiltonian_qm.Externals)
    (el : libhamiltonian_qm.Electronic_Structure) (syst : libhamiltonian_qm.System)
    (basis_ao : List AO) (prms : libhamiltonian_qm.Control_Parameters)
    (modprms : libhamiltonian_qm.Model_Parameters) (atom_to_ao_map : List (List Nat))
    (ao_to_atom_map : List Nat) (hN : basis_ao.length = el.Hao.num_of_cols)
    (hoff : prms.use_rosh = 0) :
    ∃ r, libhamiltonian_qm.Hamiltonian_Fock_hf X el syst basis_ao prms modprms atom_to_ao_map
        ao_to_atom_map = some r ∧
      r.1.P = el.P_alp + el.P_bet ∧
      (∀ i, r.1.P.M i = el.P_alp.M i + el.P_bet.M i) ∧
      r.1.Hao = el.Hao ∧ r.1.P_alp = el.P_alp ∧ r.1.P_bet = el.P_bet ∧
      ∀ a b, a < basis_ao.length → b < basis_ao.length →
        r.1.Fao_alp.M (a * basis_ao.length + b)
          = libhamiltonian_qm.Fock_entry basis_ao.length modprms el.Hao r.1.P el.P_alp a b ∧
        r.1.Fao_bet.M (a * basis_ao.length + b)
          = libhamiltonian_qm.Fock_entry basis_ao.length modprms el.Hao r.1.P el.P_bet a b := by
  obtain ⟨r, hr, hH, hP, hPa, hPb, hFa, hFb⟩ :=
    Fock_hf_result X el syst basis_ao prms modprms atom_to_ao_map ao_to_atom_map hN
  refine ⟨r, hr, hP, ?_, hH, hPa, hPb, ?_⟩
  · intro i
    rw [hP]
    rfl
  · intro a b ha hb
    rw [hFa, hFb, cell_loops_cell _ _ _ a b ha hb, cell_loops_cell _ _ _ a b ha hb, hP]
    unfold libhamiltonian_qm.Fock_entry libhamiltonian_qm.Fock_term_alp
      libhamiltonian_qm.Fock_term_bet
    simp only [hoff, ne_eq, not_true_eq_false, if_false, and_self]

/-- Witness for claim C14: two orbitals, `use_rosh = 0`, entry `(1, 0)`. -/
theorem Fock_hf_construction_witness :
    ∃ r, libhamiltonian_qm.Hamiltonian_Fock_hf libhamiltonian_qm.hf_ext libhamiltonian_qm.hf_el
        libhamiltonian_qm.hf_syst [(), ()] ⟨0⟩ libhamiltonian_qm.hf_modprms [[0, 1]] [0, 0]
        = some r ∧
      r.1.Fao_alp.M (1 * 2 + 0)
        = libhamiltonian_qm.Fock_entry 2 libhamiltonian_qm.hf_modprms
            libhamiltonian_qm.hf_el.Hao r.1.P libhamiltonian_qm.hf_el.P_alp 1 0 :=
  match Fock_hf_construction libhamiltonian_qm.hf_ext libhamiltonian_qm.hf_el
      libhamiltonian_qm.hf_syst [(), ()] ⟨0⟩ libhamiltonian_qm.hf_modprms [[0, 1]] [0, 0]
      rfl rfl with
  | ⟨r, hr, _, _, _, _, _, hF⟩ => ⟨r, hr, (hF 1 0 (by decide) (by decide)).1⟩

theorem Fock_terms_rosh (Norb : Nat) (prms : libhamiltonian_qm.Control_Parameters)
    (modprms : libhamiltonian_qm.Model_Parameters) (P P_alp P_bet : libhamiltonian_qm.MATRIX)
    (hon : prms.use_rosh ≠ 0) :
    libhamiltonian_qm.Fock_term_alp Norb prms modprms P P_alp
      = libhamiltonian_qm.Fock_term_bet Norb prms modprms P P_bet := by
  funext a b c d
  unfold libhamiltonian_qm.Fock_term_alp libhamiltonian_qm.Fock_term_bet
  rw [if_pos hon, if_pos hon]

theorem Fock_terms_closed_shell (Norb : Nat) (prms_on prms_off : libhamiltonian_qm.Control_Parameters)
    (modprms : libhamiltonian_qm.Model_Parameters) (Ps : libhamiltonian_qm.MATRIX)
    (hon : prms_on.use_rosh ≠ 0) (hoff : prms_off.use_rosh = 0) :
    libhamiltonian_qm.Fock_term_alp Norb prms_on modprms (Ps + Ps) Ps
      = libhamiltonian_qm.Fock_term_alp Norb prms_off modprms (Ps + Ps) Ps := by
  funext a b c d
  unfold libhamiltonian_qm.Fock_term_alp
  rw [if_pos hon, if_neg (by rw [hoff]; simp)]
  show (Ps.M (c * Norb + d) + Ps.M (c * Norb + d)) * _
      - (1/2 : ℚ) * (Ps.M (c * Norb + d) + Ps.M (c * Norb + d)) * _
    = (Ps.M (c * Norb + d) + Ps.M (c * Norb + d)) * _ - Ps.M (c * Norb + d) * _
  ring

theorem Fock_terms_off_same (Norb : Nat) (prms_off : libhamiltonian_qm.Control_Parameters)
    (modprms : libhamiltonian_qm.Model_Parameters) (P Ps : libhamiltonian_qm.MATRIX) :
    libhamiltonian_qm.Fock_term_alp Norb prms_off modprms P Ps
      = libhamiltonian_qm.Fock_term_bet Norb prms_off modprms P Ps := by
  funext a b c d
  unfold libhamiltonian_qm.Fock_term_alp libhamiltonian_qm.Fock_term_bet
  rfl

/-- Claim C17. Closed-shell equivalence of the two Fock branches: for every input that
passes the dimension check, `Hamiltonian_Fock_hf` returns with `use_rosh` on and with
`use_rosh` off; if `P_alp = P_bet` the two calls produce the same `Fao_alp` and the same
`Fao_bet`, and in both `Fao_alp = Fao_bet`; and with `use_rosh` on, `Fao_alp = Fao_bet` for
every `P_alp`, `P_bet`. -/
theorem Fock_hf_closed_shell {AO : Type} (X : libhamiltonian_qm.Externals)
    (el : libhamiltonian_qm.Electronic_Structure) (syst : libhamiltonian_qm.System)
    (basis_ao : List AO) (prms_on prms_off : libhamiltonian_qm.Control_Parameters)
    (modprms : libhamiltonian_qm.Model_Parameters) (atom_to_ao_map : List (List Nat))
    (ao_to_atom_map : List Nat) (hN : basis_ao.length = el.Hao.num_of_cols)
    (hon : prms_on.use_rosh ≠ 0) (hoff : prms_off.use_rosh = 0) :
    ∃ r_on r_off,
      libhamiltonian_qm.Hamiltonian_Fock_hf X el syst basis_ao prms_on modprms atom_to_ao_map
        ao_to_atom_map = some r_on ∧
      libhamiltonian_qm.Hamiltonian_Fock_hf X el syst basis_ao prms_off modprms atom_to_ao_map
        ao_to_atom_map = some r_off ∧
      r_on.1.Fao_alp = r_on.1.Fao_bet ∧
      (el.P_alp = el.P_bet →
        r_on.1.Fao_alp = r_off.1.Fao_alp ∧ r_on.1.Fao_bet = r_off.1.Fao_bet ∧
        r_off.1.Fao_alp = r_off.1.Fao_bet) := by
  obtain ⟨r_on, h1, _, _, _, _, ha1, hb1⟩ :=
    Fock_hf_result X el syst basis_ao prms_on modprms atom_to_ao_map ao_to_atom_map hN
  obtain ⟨r_off, h2, _, _, _, _, ha2, hb2⟩ :=
    Fock_hf_result X el syst basis_ao prms_off modprms atom_to_ao_map ao_to_atom_map hN
  have hsame : r_on.1.Fao_alp = r_on.1.Fao_bet := by
    rw [ha1, hb1, Fock_terms_rosh _ prms_on modprms _ el.P_alp el.P_bet hon]
  refine ⟨r_on, r_off, h1, h2, hsame, ?_⟩
  intro hcs
  have hoffsame : r_off.1.Fao_alp = r_off.1.Fao_bet := by
    rw [ha2, hb2, ← hcs, Fock_terms_off_same]
  have halp : r_on.1.Fao_alp = r_off.1.Fao_alp := by
    rw [ha1, ha2, ← hcs, Fock_terms_closed_shell _ prms_on prms_off modprms el.P_alp hon hoff]
  refine ⟨halp, ?_, hoffsame⟩
  rw [← hsame, halp, hoffsame]

/-- Witness for claim C17: two orbitals with the closed-shell densities of `hf_el`,
`use_rosh = 1` against `use_rosh = 0`. -/
theorem Fock_hf_closed_shell_witness :
    ∃ r_on r_off,
      libhamiltonian_qm.Hamiltonian_Fock_hf libhamiltonian_qm.hf_ext libhamiltonian_qm.hf_el
        libhamiltonian_qm.hf_syst [(), ()] ⟨1⟩ libhamiltonian_qm.hf_modprms [[0, 1]] [0, 0]
        = some r_on ∧
      libhamiltonian_qm.Hamiltonian_Fock_hf libhamiltonian_qm.hf_ext libhamiltonian_qm.hf_el
        libhamiltonian_qm.hf_syst [(), ()] ⟨0⟩ libhamiltonian_qm.hf_modprms [[0, 1]] [0, 0]
        = some r_off ∧
      r_on.1.Fao_alp = r_on.1.Fao_bet ∧
      r_on.1.Fao_alp = r_off.1.Fao_alp ∧ r_on.1.Fao_bet = r_off.1.Fao_bet ∧
      r_off.1.Fao_alp = r_off.1.Fao_bet :=
  match Fock_hf_closed_shell libhamiltonian_qm.hf_ext libhamiltonian_qm.hf_el
      libhamiltonian_qm.hf_syst [(), ()] ⟨1⟩ ⟨0⟩ libhamiltonian_qm.hf_modprms [[0, 1]] [0, 0]
      rfl (by decide) rfl with
  | ⟨r_on, r_off, h1, h2, h3, h4⟩ => ⟨r_on, r_off, h1, h2, h3, h4 rfl⟩
